import Mathlib

/-!
# Verification of the rediproxy LRU cache and cache proxy

Shallow embedding of `pkg/cache` (the LRU/TTL store, in its two versions:
the original `lru.go` and the revised version in `doc.go`) and of the
cache-proxy orchestration in `pkg/service`.

Modelling conventions:
* Go time instants and durations are `Int` (nanoseconds); each operation
  takes the current time `now` explicitly.
* Go heap pointers to `item` values are indices into an allocation arena
  `items : List Item`; items are allocated at the end and never deallocated,
  so an index stays valid forever.  Pointer dereference is `List.getD`.
* `container/list` is a list of `(nodeId, itemId)` pairs, front first.
  Every `PushFront` allocates a fresh `nodeId` from a monotone counter, so
  node ids are globally unique; `(*List).Remove(e)` (which unlinks exactly
  the element `e`, and is a no-op when `e` was already unlinked, since Go
  checks `e.list == l`) is therefore faithfully `filter (·.1 ≠ nid)`.
* A Go `map[string]*item` is an association list with unique keys;
  `delete` is `filter (·.1 ≠ k)` and assignment replaces the binding.
* Go `nil`-pointer dereference / panic is modelled by `Option`: an
  operation that can panic returns `none` in exactly the states where the
  Go code would dereference nil.
-/

/-- A cache entry (`item` in both `lru.go` and `doc.go`):
key, value, `movedAt` (time of last move to the front), `expiry`,
and `element`, the pointer to its linked-list node (`none` = nil). -/
structure Item where
  key : String
  value : String
  movedAt : Int
  expiry : Int
  element : Option Nat
deriving Repr, DecidableEq, Inhabited

/-- State of an `lruCache`: capacity, ttl, promotion window `timeWindow`,
the `lookupTable` map (assoc list key ↦ item id), the LRU linked `list`
(front first, as `(nodeId, itemId)` pairs), the item arena, and the
fresh-node-id counter. -/
structure CacheState where
  capacity : Nat
  ttl : Int
  timeWindow : Int
  lookupTable : List (String × Nat)
  nodes : List (Nat × Nat)
  items : List Item
  nextNode : Nat
deriving Repr, DecidableEq

/-- Map lookup: `lookupTable[key]`. -/
def lookupKey (l : List (String × Nat)) (k : String) : Option Nat :=
  match l.find? (fun e => e.1 == k) with
  | some e => some e.2
  | none => none

/-- Remove every pair whose first component is `a` (for an assoc list with
unique keys, exactly Go's `delete`; for the node list with globally unique
node ids, exactly `list.Remove`). -/
def eraseFst {α β : Type} [BEq α] (l : List (α × β)) (a : α) : List (α × β) :=
  l.filter (fun p => !(p.1 == a))

/-- Go map assignment `m[k] = v`: replace the binding of `k`. -/
def insertKey (l : List (String × Nat)) (k : String) (v : Nat) :
    List (String × Nat) :=
  (k, v) :: eraseFst l k

/-- Dereference an item pointer (arena index). -/
def heapGet (items : List Item) (i : Nat) : Item := items.getD i default

/-- Update the item an arena index points to. -/
def heapSet (items : List Item) (i : Nat) (it : Item) : List Item :=
  items.set i it

/-- Key of the item with arena index `iid`. -/
def itemKey (s : CacheState) (iid : Nat) : String := (heapGet s.items iid).key

/-- `movedAt` of the item with arena index `iid`. -/
def itemMoved (s : CacheState) (iid : Nat) : Int := (heapGet s.items iid).movedAt

/-- `NewLRUCache` (identical fields in both versions): empty table, empty
list, `timeWindow = defaultWindowPercent × ttl`.  Go computes
`int(0.05 * float64(t))`; on nanosecond durations of realistic size this is
`t / 20` (we keep the integer division; no claim depends on the exact
rounding of the 5% fraction). -/
def initState (c : Nat) (ttl : Int) : CacheState :=
  { capacity := c
    ttl := ttl
    timeWindow := ttl / 20
    lookupTable := []
    nodes := []
    items := []
    nextNode := 0 }

/-- Allocate a fresh item with the given `movedAt` and `expiry`, push it to
the front of the list, point its `element` at the new node, and bind the
key in the lookup table — the common tail of both versions' `Set`
(`doc.go` passes `movedAt = now`; `lru.go` leaves `movedAt` at the Go zero
time, modelled as instant `0`). -/
def pushNewItem (s : CacheState) (movedAt expiry : Int) (k v : String) :
    CacheState :=
  let iid := s.items.length
  let nid := s.nextNode
  let it : Item :=
    { key := k, value := v, movedAt := movedAt, expiry := expiry
      element := some nid }
  { s with
    items := s.items ++ [it]
    nodes := (nid, iid) :: s.nodes
    lookupTable := insertKey s.lookupTable k iid
    nextNode := nid + 1 }

namespace DocCache

/-!  The revised implementation embedded in `pkg/cache/doc.go`. -/

/-- `doc.go` `searchItem`: `none` is `ErrKeyNotFound`; otherwise the item id
together with the `move` and `delete` flags.  An item is expired when
`it.expiry.Sub(now) < 0`, i.e. `expiry < now`; it needs a move when
`now.Sub(it.movedAt) > lc.timeWindow`. -/
def searchItem (s : CacheState) (now : Int) (key : String) :
    Option (Nat × Bool × Bool) :=
  match lookupKey s.lookupTable key with
  | none => none
  | some iid =>
    let it := heapGet s.items iid
    if it.expiry - now < 0 then some (iid, false, true)
    else if now - it.movedAt > s.timeWindow then some (iid, true, false)
    else some (iid, false, false)

/-- `doc.go` `removeItem`: no-op when `i.element == nil`; otherwise unlink
the node, delete the key from the table, and nil the `element`. -/
def removeItem (s : CacheState) (iid : Nat) : CacheState :=
  let it := heapGet s.items iid
  match it.element with
  | none => s
  | some nid =>
    { s with
      nodes := eraseFst s.nodes nid
      lookupTable := eraseFst s.lookupTable it.key
      items := heapSet s.items iid { it with element := none } }

/-- `doc.go` `moveItemFront`: no-op when `i.element == nil`; otherwise
unlink the node, refresh `movedAt`, and push a fresh node to the front. -/
def moveItemFront (s : CacheState) (now : Int) (iid : Nat) : CacheState :=
  let it := heapGet s.items iid
  match it.element with
  | none => s
  | some nid =>
    { s with
      nodes := (s.nextNode, iid) :: eraseFst s.nodes nid
      items := heapSet s.items iid { it with movedAt := now, element := some s.nextNode }
      nextNode := s.nextNode + 1 }

/-- `doc.go` `Get`: `none` result is `ErrKeyNotFound`.  On the delete flag
the entry is lazily removed; on the move flag it is promoted. -/
def Get (s : CacheState) (now : Int) (key : String) :
    Option String × CacheState :=
  match searchItem s now key with
  | none => (none, s)
  | some (iid, mv, del) =>
    if del then (none, removeItem s iid)
    else if mv then (some (heapGet s.items iid).value, moveItemFront s now iid)
    else (some (heapGet s.items iid).value, s)

/-- `doc.go` `isFull`: `len(lookupTable) == capacity`. -/
def isFull (s : CacheState) : Bool := s.lookupTable.length == s.capacity

/-- `doc.go` `Set`: when full, read the back of the list (`nil` dereference,
hence `none`, when the list is empty), delete that item's key from the
table and unlink the back node; then push the new entry to the front with
`movedAt = now` and `expiry = now + ttl`. -/
def Set (s : CacheState) (now : Int) (k v : String) : Option CacheState :=
  if isFull s then
    match s.nodes.getLast? with
    | none => none
    | some back =>
      let bIt := heapGet s.items back.2
      let s1 := { s with
        lookupTable := eraseFst s.lookupTable bIt.key
        nodes := s.nodes.dropLast }
      some (pushNewItem s1 now (now + s.ttl) k v)
  else some (pushNewItem s now (now + s.ttl) k v)

end DocCache

namespace OldCache

/-!  The original implementation in `pkg/cache/lru.go`. -/

/-- `lru.go` `searchItem`: differs from the revised version in returning a
nil item pointer (`none`) on the expired branch. -/
def searchItem (s : CacheState) (now : Int) (key : String) :
    Option (Option Nat × Bool × Bool) :=
  match lookupKey s.lookupTable key with
  | none => none
  | some iid =>
    let it := heapGet s.items iid
    if it.expiry - now < 0 then some (none, false, true)
    else if now - it.movedAt > s.timeWindow then some (some iid, true, false)
    else some (some iid, false, false)

/-- `lru.go` `removeItem`: no nil checks — a nil item pointer, or a nil
`element`, panics (`none`).  Otherwise unlink the node and delete the key
(the `element` field is not cleared). -/
def removeItem (s : CacheState) (optIid : Option Nat) : Option CacheState :=
  match optIid with
  | none => none
  | some iid =>
    let it := heapGet s.items iid
    match it.element with
    | none => none
    | some nid =>
      some { s with
        nodes := eraseFst s.nodes nid
        lookupTable := eraseFst s.lookupTable it.key }

/-- `lru.go` `moveItemFront`: no nil check on the item (`none` on nil), no
refresh of `movedAt`; unlink the node (a no-op if already unlinked) and
push a fresh node to the front. -/
def moveItemFront (s : CacheState) (optIid : Option Nat) : Option CacheState :=
  match optIid with
  | none => none
  | some iid =>
    let it := heapGet s.items iid
    match it.element with
    | none => none
    | some nid =>
      some { s with
        nodes := (s.nextNode, iid) :: eraseFst s.nodes nid
        items := heapSet s.items iid { it with element := some s.nextNode }
        nextNode := s.nextNode + 1 }

/-- `lru.go` `Get`: outer `none` is a panic, inner `none` is
`ErrKeyNotFound`.  On the delete flag it calls `removeItem` on the nil item
returned by `searchItem` (a nil dereference), and would then read
`it.value` from the nil item. -/
def Get (s : CacheState) (now : Int) (key : String) :
    Option (Option String × CacheState) :=
  match searchItem s now key with
  | none => some (none, s)
  | some (optIid, mv, del) =>
    if mv then
      match moveItemFront s optIid with
      | none => none
      | some s' =>
        match optIid with
        | none => none
        | some iid => some (some (heapGet s.items iid).value, s')
    else if del then
      match removeItem s optIid with
      | none => none
      | some s' =>
        match optIid with
        | none => none
        | some iid => some (some (heapGet s.items iid).value, s')
    else
      match optIid with
      | none => none
      | some iid => some (some (heapGet s.items iid).value, s)

/-- `lru.go` `isFull`: `len(lookupTable) >= capacity`. -/
def isFull (s : CacheState) : Bool := s.capacity ≤ s.lookupTable.length

/-- `lru.go` `Set`: when full, `lc.list.Remove(lc.list.Back())` — a nil
dereference (`none`) on an empty list, and crucially **no deletion from the
lookup table**; the new item is created without setting `movedAt` (the Go
zero time, modelled as instant `0`). -/
def Set (s : CacheState) (now : Int) (k v : String) : Option CacheState :=
  if isFull s then
    match s.nodes.getLast? with
    | none => none
    | some _ =>
      let s1 := { s with nodes := s.nodes.dropLast }
      some (pushNewItem s1 0 (now + s.ttl) k v)
  else some (pushNewItem s 0 (now + s.ttl) k v)

end OldCache

/-!  Cache-proxy orchestration, `pkg/service` `cacheProxy.Get`. -/

/-- The error taxonomy of the read capability: `ErrKeyNotFound` or a
backing-store failure carrying a diagnostic message. -/
inductive CacheErr where
  | keyNotFound : CacheErr
  | failure : String → CacheErr
deriving Repr, DecidableEq

/-- Observable outcome of one `cacheProxy.Get` call: the returned
`(value, error)` pair, whether the backing store's `Get` was invoked, and
the list of `Set` calls issued to the cache store (in order, before the
value is returned). -/
structure ProxyOutcome where
  result : Except CacheErr String
  backingInvoked : Bool
  setCalls : List (String × String)
deriving Repr

/-- `cacheProxy.Get`, parametrised by the results the two collaborators
would return for `key`: first consult the in-memory cache; on its error
consult the backing store; propagate a backing error verbatim, otherwise
`Set` the value into the cache and return it. -/
def cacheProxyGet (cacheRes : Except CacheErr String)
    (backingRes : Except CacheErr String) (key : String) : ProxyOutcome :=
  match cacheRes with
  | .ok v => { result := .ok v, backingInvoked := false, setCalls := [] }
  | .error _ =>
    match backingRes with
    | .error e => { result := .error e, backingInvoked := true, setCalls := [] }
    | .ok v =>
      { result := .ok v, backingInvoked := true, setCalls := [(key, v)] }

/-!  Background reclamation, `doc.go` `runCleanup` / `removeStaleData` /
`getRandomKeys`. -/

/-- `defaultSampleSize`: size of the random key sample per sweep. -/
def defaultSampleSize : Nat := 20

/-- The Go resampling bound `0.75*defaultSampleSize` (exactly `15.0` in
float arithmetic, as `defaultSampleSize = 20`). -/
def resampleLimit : Nat := (3 * defaultSampleSize) / 4

/-- The resampling test of `runCleanup`:
`len(keys) <= 0.75*defaultSampleSize`. -/
def needsResample (remaining : Nat) : Bool := remaining ≤ resampleLimit

/-- `getRandomKeys`: up to `count` keys drawn from the lookup table in
(unspecified) traversal order, modelled as the first `count` entries. -/
def getRandomKeys (s : CacheState) (count : Nat) : List String :=
  (s.lookupTable.map Prod.fst).take count

/-- `removeStaleData`: sweep the sampled keys, dropping from the sample any
key already deleted, and removing (and dropping) any expired one.  Returns
the new store state and the remaining sample. -/
def removeStaleData (s : CacheState) (now : Int) :
    List String → CacheState × List String
  | [] => (s, [])
  | k :: ks =>
    match DocCache.searchItem s now k with
    | none => removeStaleData s now ks
    | some (iid, _, del) =>
      if del then removeStaleData (DocCache.removeItem s iid) now ks
      else
        let r := removeStaleData s now ks
        (r.1, k :: r.2)

/-- One iteration of the `runCleanup` loop: re-sample when the remaining
sample has shrunk to the resampling bound, then sweep. -/
def cleanupIter (s : CacheState) (now : Int) (keys : List String) :
    CacheState × List String :=
  let keys' := if needsResample keys.length then getRandomKeys s defaultSampleSize
               else keys
  removeStaleData s now keys'

/-- The pause between `runCleanup` iterations:
`time.Sleep(time.Duration(1e9 / 10))` nanoseconds. -/
def cleanupSleepNanos : Nat := 1000000000 / 10


/-!  ## Association-list lemmas -/

theorem lookupKey_cons (p : String × Nat) (t : List (String × Nat))
    (k : String) :
    lookupKey (p :: t) k = if p.1 = k then some p.2 else lookupKey t k := by
  by_cases hp : p.1 = k
  · simp [lookupKey, List.find?_cons, hp]
  · simp [lookupKey, List.find?_cons, hp]

theorem eraseFst_cons {α β : Type} [BEq α] [LawfulBEq α] [DecidableEq α]
    (p : α × β) (t : List (α × β)) (a : α) :
    eraseFst (p :: t) a =
      if p.1 = a then eraseFst t a else p :: eraseFst t a := by
  by_cases hp : p.1 = a
  · simp [eraseFst, List.filter_cons, hp]
  · simp [eraseFst, List.filter_cons, hp]

theorem eraseFst_eq_self {α β : Type} [BEq α] [LawfulBEq α]
    {l : List (α × β)} {a : α} (h : ∀ p ∈ l, p.1 ≠ a) : eraseFst l a = l :=
  List.filter_eq_self.mpr (fun p hp => by simpa using h p hp)

theorem eraseFst_of_mem {α β : Type} [BEq α] [LawfulBEq α] [DecidableEq α]
    {l : List (α × β)} {a : α} {b : β}
    (hnd : (l.map Prod.fst).Nodup) (hm : (a, b) ∈ l) :
    ∃ l₁ l₂, l = l₁ ++ (a, b) :: l₂ ∧ eraseFst l a = l₁ ++ l₂ := by
  induction l with
  | nil => cases hm
  | cons p t ih =>
    rw [List.map_cons, List.nodup_cons] at hnd
    cases hm with
    | head =>
      refine ⟨[], t, rfl, ?_⟩
      rw [eraseFst_cons, if_pos rfl]
      refine (List.nil_append _) ▸ eraseFst_eq_self ?_
      intro q hq hqa
      refine hnd.1 ?_
      rw [show ((a, b).1 : α) = q.1 from hqa.symm]
      exact List.mem_map_of_mem Prod.fst hq
    | tail _ hm' =>
      have hpa : p.1 ≠ a := by
        intro hc
        exact hnd.1 (hc ▸ List.mem_map_of_mem Prod.fst hm')
      obtain ⟨l₁, l₂, hl, he⟩ := ih hnd.2 hm'
      exact ⟨p :: l₁, l₂, by rw [List.cons_append, ← hl],
        by rw [eraseFst_cons, if_neg hpa, he, List.cons_append]⟩

theorem lookupKey_eq_some_mem {l : List (String × Nat)} {k : String} {i : Nat}
    (h : lookupKey l k = some i) : (k, i) ∈ l := by
  induction l with
  | nil => simp [lookupKey] at h
  | cons p t ih =>
    rw [lookupKey_cons] at h
    by_cases hp : p.1 = k
    · rw [if_pos hp] at h
      obtain ⟨pk, pv⟩ := p
      cases h
      cases hp
      exact List.mem_cons_self _ _
    · rw [if_neg hp] at h
      exact List.mem_cons_of_mem _ (ih h)

theorem lookupKey_eraseFst_self (l : List (String × Nat)) (a : String) :
    lookupKey (eraseFst l a) a = none := by
  induction l with
  | nil => rfl
  | cons p t ih =>
    rw [eraseFst_cons]
    by_cases hp : p.1 = a
    · rw [if_pos hp]; exact ih
    · rw [if_neg hp, lookupKey_cons, if_neg hp]; exact ih

theorem lookupKey_eraseFst_ne (l : List (String × Nat)) (a k : String)
    (h : k ≠ a) : lookupKey (eraseFst l a) k = lookupKey l k := by
  induction l with
  | nil => rfl
  | cons p t ih =>
    rw [eraseFst_cons, lookupKey_cons]
    by_cases hp : p.1 = a
    · rw [if_pos hp, if_neg (by rw [hp]; exact fun hc => h hc.symm)]
      exact ih
    · rw [if_neg hp, lookupKey_cons]
      by_cases hpk : p.1 = k
      · rw [if_pos hpk, if_pos hpk]
      · rw [if_neg hpk, if_neg hpk]; exact ih

theorem lookupKey_insertKey_self (l : List (String × Nat)) (k : String)
    (v : Nat) : lookupKey (insertKey l k v) k = some v := by
  rw [insertKey, lookupKey_cons, if_pos rfl]

theorem lookupKey_insertKey_ne (l : List (String × Nat)) (k : String) (v : Nat)
    (k' : String) (h : k' ≠ k) :
    lookupKey (insertKey l k v) k' = lookupKey l k' := by
  rw [insertKey, lookupKey_cons, if_neg (fun hc => h hc.symm)]
  exact lookupKey_eraseFst_ne l k k' h

theorem mem_eraseFst {α β : Type} [BEq α] [LawfulBEq α]
    {l : List (α × β)} {a : α} {p : α × β} :
    p ∈ eraseFst l a ↔ p ∈ l ∧ p.1 ≠ a := by
  simp [eraseFst, List.mem_filter]

/-!  ## C4 and C9: cache-proxy orchestration -/

/-- **C4**: on a cache miss, a backing-store error — its not-found signal or
any other failure — is propagated exactly to the caller and no `Set` is
issued to the cache store; a backing-store value is written to the cache
store via `Set` with that key and value, and returned. -/
theorem proxy_miss_propagates_and_populates (cerr : CacheErr)
    (back : Except CacheErr String) (key : String) :
    (∀ e : CacheErr, back = .error e →
      cacheProxyGet (.error cerr) back key =
        { result := .error e, backingInvoked := true, setCalls := [] }) ∧
    (∀ v : String, back = .ok v →
      cacheProxyGet (.error cerr) back key =
        { result := .ok v, backingInvoked := true, setCalls := [(key, v)] }) := by
  constructor <;> intro x h <;> subst h <;> rfl

/-- Witness for C4 at a concrete failure. -/
theorem proxy_miss_propagates_and_populates_witness :
    cacheProxyGet (.error .keyNotFound) (.error (.failure "conn refused")) "k" =
      { result := .error (.failure "conn refused"), backingInvoked := true
        setCalls := [] } :=
  (proxy_miss_propagates_and_populates .keyNotFound
    (.error (.failure "conn refused")) "k").1 (.failure "conn refused") rfl

/-- **C9**: on a cache hit the proxy returns exactly the cached value and
never invokes the backing store (and issues no `Set`). -/
theorem proxy_hit_returns_cached (v : String) (back : Except CacheErr String)
    (key : String) :
    cacheProxyGet (.ok v) back key =
      { result := .ok v, backingInvoked := false, setCalls := [] } := rfl

/-!  ## C3, C7: what `doc.go` `Set` actually does on an overwrite -/

/-- **C3 counterexample**: with capacity 2, `Set a@0` then `Set a@1`
(overwriting a resident key below capacity) leaves ONE lookup-index entry
but TWO eviction-order nodes — the old order node is orphaned, so the
one-to-one index/order correspondence claimed after every operation is
violated. -/
theorem set_overwrite_breaks_correspondence :
    ((DocCache.Set (initState 2 1000) 0 "a" "1").bind fun s1 =>
      DocCache.Set s1 1 "a" "2").map
        (fun s2 => (s2.lookupTable.length, s2.nodes.length)) = some (1, 2) := by
  rfl

/-- **C7 counterexample**: with capacity 2 and resident keys `a`, `b`
(store at capacity), `Set b@2` — whose key is already present — still
evicts: afterwards `a` is gone from the lookup index.  So eviction is NOT
conditioned on the key being absent. -/
theorem set_at_capacity_evicts_despite_present_key :
    (((DocCache.Set (initState 2 1000) 0 "a" "1").bind fun s1 =>
        DocCache.Set s1 1 "b" "2").map fun s2 =>
          (lookupKey s2.lookupTable "a", lookupKey s2.lookupTable "b",
            DocCache.isFull s2)) = some (some 0, some 1, true) ∧
    (((DocCache.Set (initState 2 1000) 0 "a" "1").bind fun s1 =>
        (DocCache.Set s1 1 "b" "2").bind fun s2 =>
          DocCache.Set s2 2 "b" "22").map fun s3 =>
            lookupKey s3.lookupTable "a") = some none := by
  exact ⟨rfl, rfl⟩

/-!  ## C10: the two implementations diverge -/

/-- **C10 counterexample**: capacity 1, `Set(a,1)@0`, `Set(b,2)@1` (evicts
`a`), then `Get(a)@2`: the original `lru.go` implementation returns the
stale value `"1"` (its `Set` never removed `a` from the lookup index),
while the revised `doc.go` implementation reports not-found.  The two
versions are not observationally equivalent. -/
theorem old_new_get_divergence :
    ((OldCache.Set (initState 1 1000) 0 "a" "1").bind fun o1 =>
      (OldCache.Set o1 1 "b" "2").bind fun o2 =>
        (OldCache.Get o2 2 "a").map Prod.fst) = some (some "1") ∧
    ((DocCache.Set (initState 1 1000) 0 "a" "1").bind fun d1 =>
      (DocCache.Set d1 1 "b" "2").map fun d2 =>
        (DocCache.Get d2 2 "a").1) = some none := by
  exact ⟨rfl, rfl⟩

/-- **C10 amended**: the implementations are not equivalent; the root cause
is that the original `Set` never removes any key from the lookup index (its
capacity eviction only unlinks the back order node), whereas the revised
`Set` also deletes the evicted key — so after an eviction the original can
still serve the evicted key. -/
theorem oldSet_never_removes_keys (s : CacheState) (now : Int) (k v : String)
    (s' : CacheState) (h : OldCache.Set s now k v = some s') (k' : String)
    (hk : (lookupKey s.lookupTable k').isSome = true) :
    (lookupKey s'.lookupTable k').isSome = true := by
  have htab : s'.lookupTable = insertKey s.lookupTable k s.items.length := by
    by_cases hf : OldCache.isFull s = true
    · rw [OldCache.Set, if_pos hf] at h
      cases hg : s.nodes.getLast? with
      | none => rw [hg] at h; exact absurd h (by simp)
      | some b =>
        rw [hg] at h
        simp only [Option.some.injEq] at h
        subst h
        rfl
    · rw [OldCache.Set, if_neg hf] at h
      simp only [Option.some.injEq] at h
      subst h
      rfl
  rw [htab]
  by_cases hkk : k' = k
  · subst hkk
    rw [lookupKey_insertKey_self]
    rfl
  · rw [lookupKey_insertKey_ne _ _ _ _ hkk]
    exact hk

/-- Witness for C10-amended: `a` survives the original `Set`'s eviction. -/
theorem oldSet_never_removes_keys_witness :
    (lookupKey ((OldCache.Set
      { capacity := 1, ttl := 1000, timeWindow := 50
        lookupTable := [("a", 0)], nodes := [(0, 0)]
        items := [{ key := "a", value := "1", movedAt := 0, expiry := 1000
                    element := some 0 }]
        nextNode := 1 } 1 "b" "2").getD
          (initState 1 1000)).lookupTable "a").isSome = true := by
  have h : OldCache.Set
      { capacity := 1, ttl := 1000, timeWindow := 50
        lookupTable := [("a", 0)], nodes := [(0, 0)]
        items := [{ key := "a", value := "1", movedAt := 0, expiry := 1000
                    element := some 0 }]
        nextNode := 1 } 1 "b" "2" =
      some ((OldCache.Set
        { capacity := 1, ttl := 1000, timeWindow := 50
          lookupTable := [("a", 0)], nodes := [(0, 0)]
          items := [{ key := "a", value := "1", movedAt := 0, expiry := 1000
                      element := some 0 }]
          nextNode := 1 } 1 "b" "2").getD (initState 1 1000)) := rfl
  exact oldSet_never_removes_keys _ 1 "b" "2" _ h "a" (by decide)

/-!  ## C6: background reclamation sampling -/

/-- **C6 counterexample**: `runCleanup` re-samples when
`len(keys) <= 0.75*defaultSampleSize`, i.e. when the remaining sample has
shrunk to 15 of 20 — only 5 keys (25%) consumed, NOT "more than 75%
consumed" as the claim states.  At 15 remaining the code draws a fresh
sample although 20 − 15 = 5 consumed keys are not more than 75% of the
sample. -/
theorem cleanup_resamples_at_25_percent_consumed :
    needsResample 15 = true ∧
    ¬ ((defaultSampleSize - 15) * 4 > 3 * defaultSampleSize) := by
  exact ⟨rfl, by decide⟩

/-- **C6 amended**: each iteration draws a fresh sample of at most 20 keys
exactly when the remaining sample has shrunk to at most 75% of the sample
size (i.e. at least 25% of its keys have been evicted or expired since it
was drawn, remaining ≤ 15); otherwise it keeps sweeping the same remaining
sample; iterations are separated by a fixed 100 ms sleep (10 per
second). -/
theorem cleanup_resample_behaviour :
    (∀ n : Nat, needsResample n = true ↔ n ≤ resampleLimit) ∧
    resampleLimit = 15 ∧
    (∀ (s : CacheState) (c : Nat), (getRandomKeys s c).length ≤ c) ∧
    (∀ (s : CacheState) (now : Int) (keys : List String),
      needsResample keys.length = false →
      cleanupIter s now keys = removeStaleData s now keys) ∧
    (∀ (s : CacheState) (now : Int) (keys : List String),
      needsResample keys.length = true →
      cleanupIter s now keys =
        removeStaleData s now (getRandomKeys s defaultSampleSize)) ∧
    cleanupSleepNanos = 100000000 := by
  refine ⟨fun n => by simp [needsResample], rfl, ?_, ?_, ?_, rfl⟩
  · intro s c
    calc (getRandomKeys s c).length
        = min c (s.lookupTable.map Prod.fst).length := List.length_take ..
      _ ≤ c := Nat.min_le_left ..
  · intro s now keys h
    simp [cleanupIter, h]
  · intro s now keys h
    simp [cleanupIter, h]

/-- Witness for C6-amended: a 16-key remaining sample is swept unchanged
(no re-sampling), per the fourth conjunct. -/
theorem cleanup_resample_behaviour_witness :
    cleanupIter (initState 1 1000) 0
        ["k01", "k02", "k03", "k04", "k05", "k06", "k07", "k08", "k09", "k10",
         "k11", "k12", "k13", "k14", "k15", "k16"] =
      removeStaleData (initState 1 1000) 0
        ["k01", "k02", "k03", "k04", "k05", "k06", "k07", "k08", "k09", "k10",
         "k11", "k12", "k13", "k14", "k15", "k16"] :=
  cleanup_resample_behaviour.2.2.2.1 _ 0 _ (by decide)

/-!  ## Heap (arena) lemmas -/

theorem heapGet_set_self {items : List Item} {i : Nat}
    (h : i < items.length) (it : Item) :
    heapGet (heapSet items i it) i = it := by
  simp [heapGet, heapSet, List.getD_eq_getElem?_getD, List.getElem?_set_self h]

theorem heapGet_set_ne {items : List Item} {i j : Nat} (h : i ≠ j)
    (it : Item) : heapGet (heapSet items i it) j = heapGet items j := by
  simp [heapGet, heapSet, List.getD_eq_getElem?_getD, List.getElem?_set_ne h]

theorem heapGet_append_left {items l' : List Item} {i : Nat}
    (h : i < items.length) : heapGet (items ++ l') i = heapGet items i := by
  simp [heapGet, List.getD_eq_getElem?_getD, List.getElem?_append_left h]

theorem heapGet_append_self (items : List Item) (it : Item) :
    heapGet (items ++ [it]) items.length = it := by
  simp [heapGet, List.getD_eq_getElem?_getD,
    List.getElem?_append_right (Nat.le_refl _)]

/-!  ## The structural invariant of the revised cache -/

/-- The `element` pointer of item `iid` designates a live list node
carrying `iid`. -/
def elementLive (s : CacheState) (iid : Nat) : Prop :=
  match (heapGet s.items iid).element with
  | none => False
  | some nid => (nid, iid) ∈ s.nodes

instance instDecElementLive (s : CacheState) (iid : Nat) :
    Decidable (elementLive s iid) := by
  unfold elementLive
  cases (heapGet s.items iid).element with
  | none => exact inferInstance
  | some nid => exact inferInstance

theorem elementLive_def {s : CacheState} {iid : Nat} :
    elementLive s iid ↔ ∃ nid, (heapGet s.items iid).element = some nid ∧
      (nid, iid) ∈ s.nodes := by
  unfold elementLive
  cases h : (heapGet s.items iid).element <;> simp

/-- Well-formedness of a cache state (satisfied by every state the
`doc.go` implementation can reach): every lookup-table entry points to an
in-range item whose `key` field matches the entry's key and whose
`element` pointer designates a live list node; table keys are unique; node
ids are unique, below the allocation counter, and every node's item id is
in range. -/
def WF (s : CacheState) : Prop :=
  0 < s.capacity ∧
  (∀ e ∈ s.lookupTable, e.2 < s.items.length ∧
    (heapGet s.items e.2).key = e.1 ∧ elementLive s e.2) ∧
  (s.lookupTable.map Prod.fst).Nodup ∧
  (s.nodes.map Prod.fst).Nodup ∧
  (∀ p ∈ s.nodes, p.1 < s.nextNode ∧ p.2 < s.items.length)

instance instDecWF (s : CacheState) : Decidable (WF s) := by
  unfold WF
  exact inferInstance

/-!  ## C1: the Get contract of the revised cache -/

/-- **C1**: `Get` reports not-found exactly when the key is absent from
the lookup index or the entry's expiry has passed; on a present-but-expired
key the entry is removed (lazy deletion) and not-found returned; on a
present, unexpired key the stored value is returned with no error. -/
theorem docGet_notFound_iff (s : CacheState) (now : Int) (k : String)
    (hwf : WF s) :
    ((DocCache.Get s now k).1 = none ↔
      lookupKey s.lookupTable k = none ∨
        ∃ iid, lookupKey s.lookupTable k = some iid ∧
          (heapGet s.items iid).expiry < now) ∧
    (∀ iid, lookupKey s.lookupTable k = some iid →
      (heapGet s.items iid).expiry < now →
      (DocCache.Get s now k).1 = none ∧
      lookupKey (DocCache.Get s now k).2.lookupTable k = none) ∧
    (∀ iid, lookupKey s.lookupTable k = some iid →
      now ≤ (heapGet s.items iid).expiry →
      (DocCache.Get s now k).1 = some (heapGet s.items iid).value) := by
  obtain ⟨hcap, htab, hnk, hnn, hnb⟩ := hwf
  cases hl : lookupKey s.lookupTable k with
  | none =>
    refine ⟨by simp [DocCache.Get, DocCache.searchItem, hl], ?_, ?_⟩ <;>
      (intro iid h hx; cases h)
  | some iid =>
    have hmem := lookupKey_eq_some_mem hl
    obtain ⟨hlen, hkey, hlive⟩ := htab _ hmem
    have hkey' : (heapGet s.items iid).key = k := hkey
    have hlive' : elementLive s iid := hlive
    obtain ⟨nid, hel, hnmem⟩ := elementLive_def.mp hlive'
    by_cases hexp : (heapGet s.items iid).expiry < now
    · have hs : DocCache.searchItem s now k = some (iid, false, true) := by
        rw [DocCache.searchItem, hl]
        simp [sub_neg.mpr hexp]
      have hget : DocCache.Get s now k = (none, DocCache.removeItem s iid) := by
        simp [DocCache.Get, hs]
      have hrem : (DocCache.removeItem s iid).lookupTable =
          eraseFst s.lookupTable (heapGet s.items iid).key := by
        rw [DocCache.removeItem]
        simp only [hel]
      refine ⟨?_, ?_, ?_⟩
      · rw [hget]
        simp only [true_iff]
        exact Or.inr ⟨iid, rfl, hexp⟩
      · intro iid' h hx
        cases h
        refine ⟨by rw [hget], ?_⟩
        rw [hget]
        simpa [hrem, hkey'] using lookupKey_eraseFst_self s.lookupTable k
      · intro iid' h hx
        cases h
        exact absurd hexp (not_lt.mpr hx)
    · have hne : ¬ ((heapGet s.items iid).expiry - now < 0) := by
        rw [sub_neg]
        exact hexp
      have hval : (DocCache.Get s now k).1 =
          some (heapGet s.items iid).value := by
        rw [DocCache.Get, DocCache.searchItem, hl]
        by_cases hmv : now - (heapGet s.items iid).movedAt > s.timeWindow <;>
          simp [hne, hmv]
      refine ⟨?_, ?_, ?_⟩
      · rw [hval]
        simp only [Option.some_ne_none, false_iff]
        rintro (h | ⟨iid', h, hx⟩)
        · cases h
        · cases h
          exact hexp hx
      · intro iid' h hx
        cases h
        exact absurd hx hexp
      · intro iid' h hx
        cases h
        exact hval

/-- Witness for C1: a two-entry well-formed state, queried past the expiry
of `a` — the entry is removed and not-found reported. -/
theorem docGet_notFound_iff_witness :
    (DocCache.Get
      { capacity := 2, ttl := 1000, timeWindow := 50
        lookupTable := [("a", 0)], nodes := [(0, 0)]
        items := [{ key := "a", value := "1", movedAt := 0, expiry := 1000
                    element := some 0 }]
        nextNode := 1 } 2000 "a").1 = none ∧
      lookupKey (DocCache.Get
      { capacity := 2, ttl := 1000, timeWindow := 50
        lookupTable := [("a", 0)], nodes := [(0, 0)]
        items := [{ key := "a", value := "1", movedAt := 0, expiry := 1000
                    element := some 0 }]
        nextNode := 1 } 2000 "a").2.lookupTable "a" = none :=
  (docGet_notFound_iff
    { capacity := 2, ttl := 1000, timeWindow := 50
      lookupTable := [("a", 0)], nodes := [(0, 0)]
      items := [{ key := "a", value := "1", movedAt := 0, expiry := 1000
                  element := some 0 }]
      nextNode := 1 } 2000 "a" (by decide)).2.1 0 (by decide) (by decide)

/-!  ## C5: lazy promotion window -/

/-- **C5**: for a resident, unexpired entry last promoted at `t0` with
promotion window `w`: a `Get` strictly before `t0 + w` returns the value
and leaves the whole store state — in particular the entry's position and
`movedAt` — untouched; a `Get` after `t0 + w` returns the value, moves the
entry to the hot end (its fresh node is at the head of the order list),
and refreshes `movedAt` to the current time, leaving the key, value and
expiry of the entry and the lookup table unchanged. -/
theorem docGet_promotion_window (s : CacheState) (now : Int) (k : String)
    (iid : Nat) (hwf : WF s) (hl : lookupKey s.lookupTable k = some iid)
    (hexp : now ≤ (heapGet s.items iid).expiry) :
    (now < (heapGet s.items iid).movedAt + s.timeWindow →
      DocCache.Get s now k = (some (heapGet s.items iid).value, s)) ∧
    ((heapGet s.items iid).movedAt + s.timeWindow < now →
      (DocCache.Get s now k).1 = some (heapGet s.items iid).value ∧
      (DocCache.Get s now k).2.nodes.head? = some (s.nextNode, iid) ∧
      heapGet (DocCache.Get s now k).2.items iid =
        { heapGet s.items iid with
            movedAt := now, element := some s.nextNode } ∧
      (DocCache.Get s now k).2.lookupTable = s.lookupTable) := by
  obtain ⟨hcap, htab, hnk, hnn, hnb⟩ := hwf
  have hmem := lookupKey_eq_some_mem hl
  obtain ⟨hlen, hkey, hlive⟩ := htab _ hmem
  have hlen' : iid < s.items.length := hlen
  have hlive' : elementLive s iid := hlive
  obtain ⟨nid, hel, hnmem⟩ := elementLive_def.mp hlive'
  have hne : ¬ ((heapGet s.items iid).expiry - now < 0) := by omega
  constructor
  · intro hin
    have hmv : ¬ (now - (heapGet s.items iid).movedAt > s.timeWindow) := by
      omega
    have hs : DocCache.searchItem s now k = some (iid, false, false) := by
      rw [DocCache.searchItem, hl]
      simp [hne, hmv]
    simp [DocCache.Get, hs]
  · intro hout
    have hmv : now - (heapGet s.items iid).movedAt > s.timeWindow := by omega
    have hs : DocCache.searchItem s now k = some (iid, true, false) := by
      rw [DocCache.searchItem, hl]
      simp [hne, hmv]
    have hget : DocCache.Get s now k =
        (some (heapGet s.items iid).value, DocCache.moveItemFront s now iid) := by
      simp [DocCache.Get, hs]
    have hmove : DocCache.moveItemFront s now iid =
        { s with
          nodes := (s.nextNode, iid) :: eraseFst s.nodes nid
          items := heapSet s.items iid
            { heapGet s.items iid with
                movedAt := now, element := some s.nextNode }
          nextNode := s.nextNode + 1 } := by
      rw [DocCache.moveItemFront]
      simp only [hel]
    rw [hget, hmove]
    exact ⟨rfl, rfl, heapGet_set_self hlen' _, rfl⟩

/-- Witness for C5: entry promoted at `t0 = 1`, window `50`; a `Get` at
`52 > t0 + w` moves it to the front and refreshes `movedAt`. -/
theorem docGet_promotion_window_witness :
    (DocCache.Get
      { capacity := 1, ttl := 1000, timeWindow := 50
        lookupTable := [("b", 0)], nodes := [(0, 0)]
        items := [{ key := "b", value := "2", movedAt := 1, expiry := 1001
                    element := some 0 }]
        nextNode := 1 } 52 "b").1 = some "2" ∧
    (DocCache.Get
      { capacity := 1, ttl := 1000, timeWindow := 50
        lookupTable := [("b", 0)], nodes := [(0, 0)]
        items := [{ key := "b", value := "2", movedAt := 1, expiry := 1001
                    element := some 0 }]
        nextNode := 1 } 52 "b").2.nodes.head? = some (1, 0) := by
  have h := (docGet_promotion_window
    { capacity := 1, ttl := 1000, timeWindow := 50
      lookupTable := [("b", 0)], nodes := [(0, 0)]
      items := [{ key := "b", value := "2", movedAt := 1, expiry := 1001
                  element := some 0 }]
      nextNode := 1 } 52 "b" 0 (by decide) (by decide) (by decide)).2
    (by decide)
  exact ⟨h.1, h.2.1⟩

/-!  ## Preservation of the structural invariant -/

theorem nodup_fst_inj {α β : Type} {l : List (α × β)}
    (h : (l.map Prod.fst).Nodup) {a : α} {b1 b2 : β}
    (h1 : (a, b1) ∈ l) (h2 : (a, b2) ∈ l) : b1 = b2 := by
  induction l with
  | nil => cases h1
  | cons p t ih =>
    rw [List.map_cons, List.nodup_cons] at h
    cases h1 with
    | head =>
      cases h2 with
      | head => rfl
      | tail _ h2' =>
        exact absurd (List.mem_map_of_mem Prod.fst h2') h.1
    | tail _ h1' =>
      cases h2 with
      | head => exact absurd (List.mem_map_of_mem Prod.fst h1') h.1
      | tail _ h2' => exact ih h.2 h1' h2'

theorem docSearchItem_some {s : CacheState} {now : Int} {key : String}
    {iid : Nat} {mv del : Bool}
    (h : DocCache.searchItem s now key = some (iid, mv, del)) :
    lookupKey s.lookupTable key = some iid := by
  rw [DocCache.searchItem] at h
  cases hl : lookupKey s.lookupTable key with
  | none => rw [hl] at h; cases h
  | some j =>
    rw [hl] at h
    dsimp only at h
    split_ifs at h <;> (cases h; rfl)

/-- `removeItem` on a table-resident item preserves well-formedness. -/
theorem WF_removeItem {s : CacheState} {k : String} {iid : Nat}
    (hwf : WF s) (hl : lookupKey s.lookupTable k = some iid) :
    WF (DocCache.removeItem s iid) := by
  obtain ⟨hcap, htab, hnk, hnn, hnb⟩ := hwf
  have hmem := lookupKey_eq_some_mem hl
  obtain ⟨hlen, hkey, hlive⟩ := htab _ hmem
  have hlen' : iid < s.items.length := hlen
  have hkey' : (heapGet s.items iid).key = k := hkey
  have hlive' : elementLive s iid := hlive
  obtain ⟨nid, hel, hnmem⟩ := elementLive_def.mp hlive'
  have hs' : DocCache.removeItem s iid =
      { s with
        nodes := eraseFst s.nodes nid
        lookupTable := eraseFst s.lookupTable (heapGet s.items iid).key
        items := heapSet s.items iid { heapGet s.items iid with element := none } } := by
    rw [DocCache.removeItem]
    simp only [hel]
  rw [hs']
  refine ⟨hcap, ?_, ?_, ?_, ?_⟩
  · rintro ⟨k', j⟩ he
    rw [hkey'] at he
    obtain ⟨he, hne⟩ := mem_eraseFst.mp he
    obtain ⟨hjlen, hjkey, hjlive⟩ := htab _ he
    have hjlen' : j < s.items.length := hjlen
    have hjkey' : (heapGet s.items j).key = k' := hjkey
    have hjlive' : elementLive s j := hjlive
    obtain ⟨nj, hjel, hjn⟩ := elementLive_def.mp hjlive'
    have hji : j ≠ iid := by
      intro hji
      apply hne
      rw [← hjkey', hji, hkey']
    refine ⟨by simpa [heapSet] using hjlen', ?_, ?_⟩
    · dsimp only
      rw [heapGet_set_ne (fun hc => hji hc.symm)]
      exact hjkey'
    · rw [elementLive_def]
      refine ⟨nj, ?_, ?_⟩
      · dsimp only
        rw [heapGet_set_ne (fun hc => hji hc.symm)]
        exact hjel
      · have hnj : nj ≠ nid := by
          intro hc
          exact hji (nodup_fst_inj hnn (hc ▸ hjn) hnmem)
        exact mem_eraseFst.mpr ⟨hjn, hnj⟩
  · dsimp only
    exact List.Nodup.sublist
      (List.Sublist.map _ (List.filter_sublist _)) hnk
  · dsimp only
    exact List.Nodup.sublist
      (List.Sublist.map _ (List.filter_sublist _)) hnn
  · rintro p hp
    obtain ⟨hp, _⟩ := mem_eraseFst.mp hp
    obtain ⟨h1, h2⟩ := hnb _ hp
    exact ⟨h1, by simpa [heapSet] using h2⟩

/-- `moveItemFront` on a table-resident item preserves well-formedness. -/
theorem WF_moveItemFront {s : CacheState} {now : Int} {k : String} {iid : Nat}
    (hwf : WF s) (hl : lookupKey s.lookupTable k = some iid) :
    WF (DocCache.moveItemFront s now iid) := by
  obtain ⟨hcap, htab, hnk, hnn, hnb⟩ := hwf
  have hmem := lookupKey_eq_some_mem hl
  obtain ⟨hlen, hkey, hlive⟩ := htab _ hmem
  have hlen' : iid < s.items.length := hlen
  have hkey' : (heapGet s.items iid).key = k := hkey
  have hlive' : elementLive s iid := hlive
  obtain ⟨nid, hel, hnmem⟩ := elementLive_def.mp hlive'
  have hs' : DocCache.moveItemFront s now iid =
      { s with
        nodes := (s.nextNode, iid) :: eraseFst s.nodes nid
        items := heapSet s.items iid
          { heapGet s.items iid with movedAt := now, element := some s.nextNode }
        nextNode := s.nextNode + 1 } := by
    rw [DocCache.moveItemFront]
    simp only [hel]
  rw [hs']
  refine ⟨hcap, ?_, hnk, ?_, ?_⟩
  · rintro ⟨k', j⟩ he
    obtain ⟨hjlen, hjkey, hjlive⟩ := htab _ he
    have hjlen' : j < s.items.length := hjlen
    have hjkey' : (heapGet s.items j).key = k' := hjkey
    have hjlive' : elementLive s j := hjlive
    obtain ⟨nj, hjel, hjn⟩ := elementLive_def.mp hjlive'
    by_cases hji : j = iid
    · subst hji
      refine ⟨by simpa [heapSet] using hjlen', ?_, ?_⟩
      · dsimp only
        rw [heapGet_set_self hjlen']
        exact hjkey'
      · rw [elementLive_def]
        dsimp only
        rw [heapGet_set_self hjlen']
        exact ⟨s.nextNode, rfl, List.mem_cons_self _ _⟩
    · refine ⟨by simpa [heapSet] using hjlen', ?_, ?_⟩
      · dsimp only
        rw [heapGet_set_ne (fun hc => hji hc.symm)]
        exact hjkey'
      · rw [elementLive_def]
        dsimp only
        rw [heapGet_set_ne (fun hc => hji hc.symm)]
        refine ⟨nj, hjel, ?_⟩
        have hnj : nj ≠ nid := by
          intro hc
          exact hji (nodup_fst_inj hnn (hc ▸ hjn) hnmem)
        exact List.mem_cons_of_mem _ (mem_eraseFst.mpr ⟨hjn, hnj⟩)
  · dsimp only
    rw [List.map_cons, List.nodup_cons]
    refine ⟨?_, List.Nodup.sublist
      (List.Sublist.map _ (List.filter_sublist _)) hnn⟩
    intro hc
    obtain ⟨p, hp, hps⟩ := List.mem_map.mp hc
    obtain ⟨hp, _⟩ := mem_eraseFst.mp hp
    exact absurd (hps ▸ (hnb _ hp).1) (lt_irrefl _)
  · rintro p hp
    cases hp with
    | head =>
      exact ⟨Nat.lt_succ_self _, by simpa [heapSet] using hlen'⟩
    | tail _ hp' =>
      obtain ⟨hp', _⟩ := mem_eraseFst.mp hp'
      obtain ⟨h1, h2⟩ := hnb _ hp'
      exact ⟨Nat.lt_succ_of_lt h1, by simpa [heapSet] using h2⟩

/-- `pushNewItem` preserves well-formedness (for any key, resident or
not). -/
theorem WF_pushNewItem {s : CacheState} (hwf : WF s) (m e : Int)
    (k v : String) : WF (pushNewItem s m e k v) := by
  obtain ⟨hcap, htab, hnk, hnn, hnb⟩ := hwf
  rw [pushNewItem]
  refine ⟨hcap, ?_, ?_, ?_, ?_⟩
  · rintro ⟨k', j⟩ he
    rw [insertKey] at he
    cases he with
    | head =>
      refine ⟨by simp, ?_, ?_⟩
      · dsimp only
        rw [heapGet_append_self]
      · rw [elementLive_def]
        dsimp only
        rw [heapGet_append_self]
        exact ⟨s.nextNode, rfl, List.mem_cons_self _ _⟩
    | tail _ he' =>
      obtain ⟨he', hne⟩ := mem_eraseFst.mp he'
      obtain ⟨hjlen, hjkey, hjlive⟩ := htab _ he'
      have hjlen' : j < s.items.length := hjlen
      have hjkey' : (heapGet s.items j).key = k' := hjkey
      have hjlive' : elementLive s j := hjlive
      obtain ⟨nj, hjel, hjn⟩ := elementLive_def.mp hjlive'
      refine ⟨by simp [Nat.lt_succ_of_lt hjlen'], ?_, ?_⟩
      · dsimp only
        rw [heapGet_append_left hjlen']
        exact hjkey'
      · rw [elementLive_def]
        dsimp only
        rw [heapGet_append_left hjlen']
        exact ⟨nj, hjel, List.mem_cons_of_mem _ hjn⟩
  · dsimp only
    rw [insertKey, List.map_cons, List.nodup_cons]
    refine ⟨?_, List.Nodup.sublist
      (List.Sublist.map _ (List.filter_sublist _)) hnk⟩
    intro hc
    obtain ⟨p, hp, hps⟩ := List.mem_map.mp hc
    obtain ⟨_, hpne⟩ := mem_eraseFst.mp hp
    exact hpne hps
  · dsimp only
    rw [List.map_cons, List.nodup_cons]
    refine ⟨?_, hnn⟩
    intro hc
    obtain ⟨p, hp, hps⟩ := List.mem_map.mp hc
    exact absurd (hps ▸ (hnb _ hp).1) (lt_irrefl _)
  · rintro p hp
    cases hp with
    | head => exact ⟨Nat.lt_succ_self _, by simp⟩
    | tail _ hp' =>
      obtain ⟨h1, h2⟩ := hnb _ hp'
      exact ⟨Nat.lt_succ_of_lt h1, by simp [Nat.lt_succ_of_lt h2]⟩

/-- The capacity-eviction prefix of `doc.go` `Set` (delete the back item's
key, unlink the back node) preserves well-formedness. -/
theorem WF_evict {s : CacheState} {back : Nat × Nat}
    (hwf : WF s) (hg : s.nodes.getLast? = some back) :
    WF { s with
      lookupTable := eraseFst s.lookupTable (heapGet s.items back.2).key
      nodes := s.nodes.dropLast } := by
  obtain ⟨hcap, htab, hnk, hnn, hnb⟩ := hwf
  have hdecomp : s.nodes.dropLast ++ [back] = s.nodes :=
    List.dropLast_append_getLast? back (Option.mem_def.mpr hg)
  refine ⟨hcap, ?_, ?_, ?_, ?_⟩
  · rintro ⟨k', j⟩ he
    obtain ⟨he, hne⟩ := mem_eraseFst.mp he
    obtain ⟨hjlen, hjkey, hjlive⟩ := htab _ he
    have hjlen' : j < s.items.length := hjlen
    have hjkey' : (heapGet s.items j).key = k' := hjkey
    have hjlive' : elementLive s j := hjlive
    obtain ⟨nj, hjel, hjn⟩ := elementLive_def.mp hjlive'
    refine ⟨hjlen', hjkey', ?_⟩
    rw [elementLive_def]
    refine ⟨nj, hjel, ?_⟩
    rw [← hdecomp] at hjn
    rcases List.mem_append.mp hjn with hin | hlast
    · exact hin
    · exfalso
      have hje : (nj, j) = back := by simpa using hlast
      apply hne
      rw [← hjkey', show j = back.2 from congrArg Prod.snd hje]
  · exact List.Nodup.sublist
      (List.Sublist.map _ (List.filter_sublist _)) hnk
  · exact List.Nodup.sublist
      (List.Sublist.map _ (List.dropLast_sublist _)) hnn
  · rintro p hp
    exact hnb _ ((List.dropLast_sublist s.nodes).subset hp)

/-- `doc.go` `Set` preserves well-formedness whenever it succeeds. -/
theorem WF_docSet {s s' : CacheState} {now : Int} {k v : String}
    (hwf : WF s) (h : DocCache.Set s now k v = some s') : WF s' := by
  rw [DocCache.Set] at h
  by_cases hf : DocCache.isFull s = true
  · rw [if_pos hf] at h
    cases hg : s.nodes.getLast? with
    | none => rw [hg] at h; cases h
    | some back =>
      rw [hg] at h
      injection h with h
      subst h
      exact WF_pushNewItem (WF_evict hwf hg) now (now + s.ttl) k v
  · rw [if_neg hf] at h
    injection h with h
    subst h
    exact WF_pushNewItem hwf now (now + s.ttl) k v

/-- On a well-formed state, `doc.go` `Set` always succeeds (the back of
the list is never nil when the store is full). -/
theorem docSet_isSome {s : CacheState} (hwf : WF s) (now : Int)
    (k v : String) : (DocCache.Set s now k v).isSome = true := by
  rw [DocCache.Set]
  by_cases hf : DocCache.isFull s = true
  · rw [if_pos hf]
    obtain ⟨hcap, htab, _, _, _⟩ := hwf
    have hlen : s.lookupTable.length = s.capacity := by
      rw [DocCache.isFull] at hf
      exact beq_iff_eq.mp hf
    have htne : s.lookupTable ≠ [] := by
      intro hc
      rw [hc] at hlen
      simp at hlen
      omega
    obtain ⟨e, he⟩ := List.exists_mem_of_ne_nil _ htne
    obtain ⟨_, _, hlive⟩ := htab _ he
    obtain ⟨nid, _, hn⟩ := elementLive_def.mp hlive
    have hnne : s.nodes ≠ [] := List.ne_nil_of_mem hn
    cases hg : s.nodes.getLast? with
    | none => exact absurd (List.getLast?_eq_none_iff.mp hg) hnne
    | some back => simp
  · rw [if_neg hf]
    simp

/-- `doc.go` `Get` preserves well-formedness. -/
theorem WF_docGet {s : CacheState} (hwf : WF s) (now : Int) (k : String) :
    WF (DocCache.Get s now k).2 := by
  rw [DocCache.Get]
  cases hs : DocCache.searchItem s now k with
  | none => exact hwf
  | some r =>
    obtain ⟨iid, mv, del⟩ := r
    have hl := docSearchItem_some hs
    cases del with
    | true => exact WF_removeItem hwf hl
    | false =>
      cases mv with
      | true => exact WF_moveItemFront hwf hl
      | false => exact hwf

/-- The background sweep `removeStaleData` preserves well-formedness. -/
theorem WF_removeStaleData {s : CacheState} (hwf : WF s) (now : Int)
    (keys : List String) : WF (removeStaleData s now keys).1 := by
  induction keys generalizing s with
  | nil => exact hwf
  | cons k ks ih =>
    rw [removeStaleData]
    cases hs : DocCache.searchItem s now k with
    | none => exact ih hwf
    | some r =>
      obtain ⟨iid, mv, del⟩ := r
      have hl := docSearchItem_some hs
      cases del with
      | true => exact ih (WF_removeItem hwf hl)
      | false => exact ih hwf

/-- States reachable by the `doc.go` cache: from `NewLRUCache` with a
positive capacity, closed under `Set` (when it succeeds), `Get` and the
background sweep. -/
inductive Reach : CacheState → Prop where
  | init (c : Nat) (ttl : Int) (h : 0 < c) : Reach (initState c ttl)
  | set {s s' : CacheState} (now : Int) (k v : String) (hs : Reach s)
      (h : DocCache.Set s now k v = some s') : Reach s'
  | get {s : CacheState} (now : Int) (k : String) (hs : Reach s) :
      Reach (DocCache.Get s now k).2
  | cleanup {s : CacheState} (now : Int) (keys : List String)
      (hs : Reach s) : Reach (removeStaleData s now keys).1

theorem WF_initState (c : Nat) (ttl : Int) (h : 0 < c) :
    WF (initState c ttl) := by
  refine ⟨h, ?_, ?_, ?_, ?_⟩ <;> simp [initState]

/-- Every reachable state is well-formed. -/
theorem Reach_WF {s : CacheState} (h : Reach s) : WF s := by
  induction h with
  | init c ttl h => exact WF_initState c ttl h
  | set now k v hs h ih => exact WF_docSet ih h
  | get now k hs ih => exact WF_docGet ih now k
  | cleanup now keys hs ih => exact WF_removeStaleData ih now keys

/-!  ## C8: totality of the store operations -/

/-- **C8**: from any reachable state of a store constructed with positive
capacity, `Set` is total and infallible — it always succeeds (in the
model, never takes the nil-dereference branch on the eviction path).
`Get`, `removeItem`, `moveItemFront` and the background sweep are total
functions of the model by construction, and the only non-value outcome any
operation returns is the not-found signal of `Get`. -/
theorem docSet_total_on_reachable (s : CacheState) (h : Reach s)
    (now : Int) (k v : String) :
    (DocCache.Set s now k v).isSome = true :=
  docSet_isSome (Reach_WF h) now k v

/-- Witness for C8 at the freshly constructed store. -/
theorem docSet_total_on_reachable_witness :
    (DocCache.Set (initState 1 1000) 0 "a" "x").isSome = true :=
  docSet_total_on_reachable (initState 1 1000)
    (Reach.init 1 1000 (by decide)) 0 "a" "x"

/-!  ## C3: index/order correspondence -/

/-- The eviction-order list has exactly one node per lookup-index entry,
in one-to-one correspondence via the shared item: the multiset of item ids
on the order list equals the multiset of item ids in the index (hence no
orphaned index entries and no orphaned order nodes). -/
def Corresponds (s : CacheState) : Prop :=
  (s.nodes.map Prod.snd).Perm (s.lookupTable.map Prod.snd)

instance instDecCorresponds (s : CacheState) : Decidable (Corresponds s) := by
  unfold Corresponds
  exact inferInstance

theorem lookupKey_eq_none {l : List (String × Nat)} {k : String}
    (h : lookupKey l k = none) : ∀ p ∈ l, p.1 ≠ k := by
  intro p hp hpk
  rw [lookupKey] at h
  cases hf : l.find? (fun e => e.1 == k) with
  | some e => rw [hf] at h; cases h
  | none =>
    have := List.find?_eq_none.mp hf p hp
    simp [hpk] at this

theorem corresponds_removeItem {s : CacheState} {k : String} {iid : Nat}
    (hwf : WF s) (hc : Corresponds s)
    (hl : lookupKey s.lookupTable k = some iid) :
    Corresponds (DocCache.removeItem s iid) := by
  obtain ⟨hcap, htab, hnk, hnn, hnb⟩ := hwf
  have hmem := lookupKey_eq_some_mem hl
  obtain ⟨hlen, hkey, hlive⟩ := htab _ hmem
  have hkey' : (heapGet s.items iid).key = k := hkey
  have hlive' : elementLive s iid := hlive
  obtain ⟨nid, hel, hnmem⟩ := elementLive_def.mp hlive'
  have hs' : DocCache.removeItem s iid =
      { s with
        nodes := eraseFst s.nodes nid
        lookupTable := eraseFst s.lookupTable (heapGet s.items iid).key
        items := heapSet s.items iid
          { heapGet s.items iid with element := none } } := by
    rw [DocCache.removeItem]
    simp only [hel]
  unfold Corresponds at hc ⊢
  rw [hs']
  dsimp only
  rw [hkey']
  obtain ⟨n₁, n₂, hnd, hne⟩ := eraseFst_of_mem hnn hnmem
  obtain ⟨t₁, t₂, htd, hte⟩ := eraseFst_of_mem hnk hmem
  rw [hne, hte]
  rw [hnd, htd] at hc
  simp only [List.map_append, List.map_cons] at hc
  have h1 : (n₁.map Prod.snd ++ iid :: n₂.map Prod.snd).Perm
      (iid :: (n₁.map Prod.snd ++ n₂.map Prod.snd)) := List.perm_middle
  have h2 : (t₁.map Prod.snd ++ iid :: t₂.map Prod.snd).Perm
      (iid :: (t₁.map Prod.snd ++ t₂.map Prod.snd)) := List.perm_middle
  have h3 := ((h1.symm.trans hc).trans h2).cons_inv
  simpa [List.map_append] using h3

theorem corresponds_moveItemFront {s : CacheState} {now : Int} {k : String}
    {iid : Nat} (hwf : WF s) (hc : Corresponds s)
    (hl : lookupKey s.lookupTable k = some iid) :
    Corresponds (DocCache.moveItemFront s now iid) := by
  obtain ⟨hcap, htab, hnk, hnn, hnb⟩ := hwf
  have hmem := lookupKey_eq_some_mem hl
  obtain ⟨hlen, hkey, hlive⟩ := htab _ hmem
  have hlive' : elementLive s iid := hlive
  obtain ⟨nid, hel, hnmem⟩ := elementLive_def.mp hlive'
  have hs' : DocCache.moveItemFront s now iid =
      { s with
        nodes := (s.nextNode, iid) :: eraseFst s.nodes nid
        items := heapSet s.items iid
          { heapGet s.items iid with
              movedAt := now, element := some s.nextNode }
        nextNode := s.nextNode + 1 } := by
    rw [DocCache.moveItemFront]
    simp only [hel]
  unfold Corresponds at hc ⊢
  rw [hs']
  dsimp only
  obtain ⟨n₁, n₂, hnd, hne⟩ := eraseFst_of_mem hnn hnmem
  rw [hne, List.map_cons]
  rw [hnd] at hc
  simp only [List.map_append, List.map_cons] at hc
  have h1 : (n₁.map Prod.snd ++ iid :: n₂.map Prod.snd).Perm
      (iid :: (n₁.map Prod.snd ++ n₂.map Prod.snd)) := List.perm_middle
  have h2 := (h1.symm.trans hc)
  simpa [List.map_append] using h2

theorem corresponds_pushNewItem_fresh {s : CacheState} {k : String}
    (hc : Corresponds s) (hfresh : lookupKey s.lookupTable k = none)
    (m e : Int) (v : String) : Corresponds (pushNewItem s m e k v) := by
  unfold Corresponds at hc ⊢
  rw [pushNewItem]
  dsimp only
  rw [insertKey, eraseFst_eq_self (lookupKey_eq_none hfresh)]
  simp only [List.map_cons]
  exact hc.cons _

theorem corresponds_docSet_fresh {s s' : CacheState} {now : Int}
    {k v : String} (hwf : WF s) (hc : Corresponds s)
    (hfresh : lookupKey s.lookupTable k = none)
    (h : DocCache.Set s now k v = some s') : Corresponds s' := by
  obtain ⟨hcap, htab, hnk, hnn, hnb⟩ := hwf
  rw [DocCache.Set] at h
  by_cases hf : DocCache.isFull s = true
  · rw [if_pos hf] at h
    cases hg : s.nodes.getLast? with
    | none => rw [hg] at h; cases h
    | some back =>
      rw [hg] at h
      injection h with h
      subst h
      -- the back node's item is bound in the table (no orphans)
      have hbn : back ∈ s.nodes := List.mem_of_getLast?_eq_some hg
      have hbm : back.2 ∈ s.lookupTable.map Prod.snd :=
        hc.subset (List.mem_map_of_mem Prod.snd hbn)
      obtain ⟨e, he, hesnd⟩ := List.mem_map.mp hbm
      obtain ⟨ek, ei⟩ := e
      cases hesnd
      have hek : ek = (heapGet s.items back.2).key := ((htab _ he).2.1).symm
      subst hek
      have hmemb : ((heapGet s.items back.2).key, back.2) ∈ s.lookupTable := he
      -- correspondence survives the eviction
      have hdecomp : s.nodes.dropLast ++ [back] = s.nodes :=
        List.dropLast_append_getLast? back (Option.mem_def.mpr hg)
      obtain ⟨t₁, t₂, htd, hte⟩ := eraseFst_of_mem hnk hmemb
      have hc1 : Corresponds
          { s with
            lookupTable := eraseFst s.lookupTable (heapGet s.items back.2).key
            nodes := s.nodes.dropLast } := by
        unfold Corresponds at hc ⊢
        dsimp only
        rw [hte]
        rw [← hdecomp, htd] at hc
        simp only [List.map_append, List.map_cons] at hc
        have h1 : (s.nodes.dropLast.map Prod.snd ++ [back.2]).Perm
            (back.2 :: s.nodes.dropLast.map Prod.snd) :=
          List.perm_append_singleton _ _
        have h2 : (t₁.map Prod.snd ++ back.2 :: t₂.map Prod.snd).Perm
            (back.2 :: (t₁.map Prod.snd ++ t₂.map Prod.snd)) :=
          List.perm_middle
        have h3 := ((h1.symm.trans hc).trans h2).cons_inv
        simpa [List.map_append] using h3
      have hfresh1 : lookupKey
          (eraseFst s.lookupTable (heapGet s.items back.2).key) k = none := by
        by_cases hkb : k = (heapGet s.items back.2).key
        · rw [hkb]
          exact lookupKey_eraseFst_self _ _
        · rw [lookupKey_eraseFst_ne _ _ _ hkb]
          exact hfresh
      exact corresponds_pushNewItem_fresh hc1 hfresh1 now (now + s.ttl) v
  · rw [if_neg hf] at h
    injection h with h
    subst h
    exact corresponds_pushNewItem_fresh hc hfresh now (now + s.ttl) v

theorem corresponds_removeStaleData (now : Int) (keys : List String) :
    ∀ {s : CacheState}, WF s → Corresponds s →
      Corresponds (removeStaleData s now keys).1 := by
  induction keys with
  | nil =>
    intro s hwf hc
    exact hc
  | cons k ks ih =>
    intro s hwf hc
    rw [removeStaleData]
    cases hs : DocCache.searchItem s now k with
    | none => exact ih hwf hc
    | some r =>
      obtain ⟨iid, mv, del⟩ := r
      cases del with
      | true =>
        exact ih (WF_removeItem hwf (docSearchItem_some hs))
          (corresponds_removeItem hwf hc (docSearchItem_some hs))
      | false => exact ih hwf hc

/-- **C3 amended**: the one-to-one index/order correspondence is preserved
by `Get` (including its promotion and lazy deletion), by the background
sweep's removals, and by a `Set` whose key is not already resident; a
`Set` that overwrites a resident key breaks it (see the counterexample). -/
theorem index_order_correspondence (s : CacheState) (hwf : WF s)
    (hc : Corresponds s) :
    (∀ (now : Int) (k : String), Corresponds (DocCache.Get s now k).2) ∧
    (∀ (now : Int) (keys : List String),
      Corresponds (removeStaleData s now keys).1) ∧
    (∀ (now : Int) (k v : String) (s' : CacheState),
      lookupKey s.lookupTable k = none →
      DocCache.Set s now k v = some s' → Corresponds s') := by
  refine ⟨?_, ?_, ?_⟩
  · intro now k
    rw [DocCache.Get]
    cases hs : DocCache.searchItem s now k with
    | none => exact hc
    | some r =>
      obtain ⟨iid, mv, del⟩ := r
      cases del with
      | true => exact corresponds_removeItem hwf hc (docSearchItem_some hs)
      | false =>
        cases mv with
        | true => exact corresponds_moveItemFront hwf hc (docSearchItem_some hs)
        | false => exact hc
  · intro now keys
    exact corresponds_removeStaleData now keys hwf hc
  · intro now k v s' hfresh h
    exact corresponds_docSet_fresh hwf hc hfresh h

/-- Witness for C3-amended: a `Get` that lazily deletes an expired entry of
a concrete two-entry store preserves the correspondence. -/
theorem index_order_correspondence_witness :
    Corresponds (DocCache.Get
      { capacity := 2, ttl := 1000, timeWindow := 50
        lookupTable := [("b", 1), ("a", 0)], nodes := [(1, 1), (0, 0)]
        items := [{ key := "a", value := "1", movedAt := 0, expiry := 1000
                    element := some 0 },
                  { key := "b", value := "2", movedAt := 1, expiry := 1001
                    element := some 1 }]
        nextNode := 2 } 2000 "a").2 :=
  (index_order_correspondence
    { capacity := 2, ttl := 1000, timeWindow := 50
      lookupTable := [("b", 1), ("a", 0)], nodes := [(1, 1), (0, 0)]
      items := [{ key := "a", value := "1", movedAt := 0, expiry := 1000
                  element := some 0 },
                { key := "b", value := "2", movedAt := 1, expiry := 1001
                  element := some 1 }]
      nextNode := 2 } (by decide) (by decide)).1 2000 "a"

/-!  ## C7: when `Set` evicts -/

/-- **C7 amended**: `Set` evicts exactly when the store is at capacity
(lookup-index size equals `capacity`), irrespective of whether the key
being set is already resident.  Below capacity every previously resident
key stays resident (insert/overwrite removes nothing); at capacity the
back entry — which is bound in the index — is removed even when the key
being set is itself resident. -/
theorem docSet_evicts_iff_full (s : CacheState) (hwf : WF s)
    (hc : Corresponds s) (now : Int) (k v : String) :
    (s.lookupTable.length ≠ s.capacity →
      ∃ s', DocCache.Set s now k v = some s' ∧
        (lookupKey s'.lookupTable k).isSome = true ∧
        ∀ k', (lookupKey s.lookupTable k').isSome = true →
          (lookupKey s'.lookupTable k').isSome = true) ∧
    (s.lookupTable.length = s.capacity →
      ∀ back : Nat × Nat, s.nodes.getLast? = some back →
        (heapGet s.items back.2).key ≠ k →
        ∃ s', DocCache.Set s now k v = some s' ∧
          ((heapGet s.items back.2).key, back.2) ∈ s.lookupTable ∧
          lookupKey s'.lookupTable (heapGet s.items back.2).key = none) := by
  obtain ⟨hcap, htab, hnk, hnn, hnb⟩ := hwf
  constructor
  · intro hne
    have hf : ¬ (DocCache.isFull s = true) := by
      rw [DocCache.isFull]
      simpa using hne
    refine ⟨pushNewItem s now (now + s.ttl) k v, ?_, ?_, ?_⟩
    · rw [DocCache.Set, if_neg hf]
    · rw [pushNewItem]
      dsimp only
      rw [lookupKey_insertKey_self]
      rfl
    · intro k' hk'
      rw [pushNewItem]
      dsimp only
      by_cases hkk : k' = k
      · subst hkk
        rw [lookupKey_insertKey_self]
        rfl
      · rw [lookupKey_insertKey_ne _ _ _ _ hkk]
        exact hk'
  · intro heq back hg hbk
    have hf : DocCache.isFull s = true := by
      rw [DocCache.isFull]
      simpa using heq
    -- the back node's item id is bound in the index
    have hbn : back ∈ s.nodes := List.mem_of_getLast?_eq_some hg
    have hbm : back.2 ∈ s.lookupTable.map Prod.snd :=
      hc.subset (List.mem_map_of_mem Prod.snd hbn)
    obtain ⟨e, he, hesnd⟩ := List.mem_map.mp hbm
    obtain ⟨ek, ei⟩ := e
    cases hesnd
    have hek : ek = (heapGet s.items back.2).key := ((htab _ he).2.1).symm
    subst hek
    refine ⟨pushNewItem
        { s with
          lookupTable := eraseFst s.lookupTable (heapGet s.items back.2).key
          nodes := s.nodes.dropLast } now (now + s.ttl) k v, ?_, he, ?_⟩
    · rw [DocCache.Set, if_pos hf, hg]
    · rw [pushNewItem]
      dsimp only
      rw [insertKey, lookupKey_cons, if_neg (fun hc' => hbk hc'.symm),
        lookupKey_eraseFst_ne _ _ _ hbk]
      exact lookupKey_eraseFst_self _ _

/-- Witness for C7-amended: at capacity 2 with residents `a`, `b`, setting
the already-resident `b` still evicts `a`. -/
theorem docSet_evicts_iff_full_witness :
    lookupKey ((DocCache.Set
      { capacity := 2, ttl := 1000, timeWindow := 50
        lookupTable := [("b", 1), ("a", 0)], nodes := [(1, 1), (0, 0)]
        items := [{ key := "a", value := "1", movedAt := 0, expiry := 1000
                    element := some 0 },
                  { key := "b", value := "2", movedAt := 1, expiry := 1001
                    element := some 1 }]
        nextNode := 2 } 2 "b" "22").getD
      { capacity := 2, ttl := 1000, timeWindow := 50
        lookupTable := [("b", 1), ("a", 0)], nodes := [(1, 1), (0, 0)]
        items := [{ key := "a", value := "1", movedAt := 0, expiry := 1000
                    element := some 0 },
                  { key := "b", value := "2", movedAt := 1, expiry := 1001
                    element := some 1 }]
        nextNode := 2 }).lookupTable "a" = none := by
  obtain ⟨s', hset, hmem, hnone⟩ :=
    (docSet_evicts_iff_full
      { capacity := 2, ttl := 1000, timeWindow := 50
        lookupTable := [("b", 1), ("a", 0)], nodes := [(1, 1), (0, 0)]
        items := [{ key := "a", value := "1", movedAt := 0, expiry := 1000
                    element := some 0 },
                  { key := "b", value := "2", movedAt := 1, expiry := 1001
                    element := some 1 }]
        nextNode := 2 } (by decide) (by decide) 2 "b" "22").2 (by decide)
      (0, 0) (by decide) (by decide)
  rw [hset]
  exact hnone

/-!  ## C2: capacity bound and eviction order on distinct-key `Set` traces -/

/-- One `Set` call of a trace: its wall-clock time, key and value. -/
structure SetOp where
  time : Int
  key : String
  val : String

/-- Run one `Set` (total on the traces considered: the invariant below
shows the eviction path never dereferences nil there). -/
def docSetD (s : CacheState) (op : SetOp) : CacheState :=
  (DocCache.Set s op.time op.key op.val).getD s

/-- Run a trace of `Set` calls. -/
def runSets (s : CacheState) (ops : List SetOp) : CacheState :=
  ops.foldl docSetD s

/-- Invariant of a store driven only by `Set` calls with fresh keys drawn
before time `b`: the lookup table is exactly the order list read through
the arena (one entry per node, positionally); the size respects capacity;
`movedAt` strictly decreases from front to back and stays below `b`; node
item ids are in range and their keys lie in `used`; node keys are
distinct. -/
def C2Inv (s : CacheState) (used : List String) (b : Int) : Prop :=
  s.lookupTable = s.nodes.map (fun p => (itemKey s p.2, p.2)) ∧
  s.lookupTable.length ≤ s.capacity ∧
  0 < s.capacity ∧
  List.Pairwise (fun p q : Nat × Nat => itemMoved s q.2 < itemMoved s p.2)
    s.nodes ∧
  (∀ p ∈ s.nodes, itemMoved s p.2 < b ∧ p.2 < s.items.length ∧
    itemKey s p.2 ∈ used) ∧
  (s.nodes.map (fun p => itemKey s p.2)).Nodup

theorem lookupKey_eq_none_iff {l : List (String × Nat)} {k : String} :
    lookupKey l k = none ↔ ∀ p ∈ l, p.1 ≠ k := by
  induction l with
  | nil => simp [lookupKey]
  | cons p t ih =>
    rw [lookupKey_cons]
    by_cases hp : p.1 = k
    · simp [hp]
    · simp [hp, ih]

theorem eraseFst_append {α β : Type} [BEq α] (l₁ l₂ : List (α × β)) (a : α) :
    eraseFst (l₁ ++ l₂) a = eraseFst l₁ a ++ eraseFst l₂ a := by
  simp [eraseFst, List.filter_append]

theorem lookupKey_append_singleton_ne {l : List (String × Nat)}
    {e : String × Nat} {k : String} (h : e.1 ≠ k) :
    lookupKey (l ++ [e]) k = lookupKey l k := by
  rw [lookupKey, List.find?_append]
  have hb : (e.1 == k) = false := beq_eq_false_iff_ne.mpr h
  have he : [e].find? (fun q => q.1 == k) = none := by
    simp [List.find?_cons, hb]
  rw [he]
  cases hf : l.find? (fun q => q.1 == k) <;> simp [lookupKey, hf]

theorem itemKey_def (s : CacheState) (iid : Nat) :
    itemKey s iid = (heapGet s.items iid).key := rfl

theorem itemMoved_def (s : CacheState) (iid : Nat) :
    itemMoved s iid = (heapGet s.items iid).movedAt := rfl

theorem pushNewItem_lookupTable (s : CacheState) (m e : Int) (k v : String) :
    (pushNewItem s m e k v).lookupTable =
      insertKey s.lookupTable k s.items.length := rfl

theorem pushNewItem_nodes (s : CacheState) (m e : Int) (k v : String) :
    (pushNewItem s m e k v).nodes =
      (s.nextNode, s.items.length) :: s.nodes := rfl

theorem pushNewItem_items (s : CacheState) (m e : Int) (k v : String) :
    (pushNewItem s m e k v).items =
      s.items ++ [{ key := k, value := v, movedAt := m, expiry := e
                    element := some s.nextNode }] := rfl

theorem pushNewItem_capacity (s : CacheState) (m e : Int) (k v : String) :
    (pushNewItem s m e k v).capacity = s.capacity := rfl

theorem itemKey_pushNewItem_old {s : CacheState} {j : Nat}
    (hj : j < s.items.length) (m e : Int) (k v : String) :
    itemKey (pushNewItem s m e k v) j = itemKey s j := by
  rw [itemKey_def, itemKey_def, pushNewItem_items, heapGet_append_left hj]

theorem itemKey_pushNewItem_new (s : CacheState) (m e : Int) (k v : String) :
    itemKey (pushNewItem s m e k v) s.items.length = k := by
  rw [itemKey_def, pushNewItem_items, heapGet_append_self]

theorem itemMoved_pushNewItem_old {s : CacheState} {j : Nat}
    (hj : j < s.items.length) (m e : Int) (k v : String) :
    itemMoved (pushNewItem s m e k v) j = itemMoved s j := by
  rw [itemMoved_def, itemMoved_def, pushNewItem_items, heapGet_append_left hj]

theorem itemMoved_pushNewItem_new (s : CacheState) (m e : Int)
    (k v : String) :
    itemMoved (pushNewItem s m e k v) s.items.length = m := by
  rw [itemMoved_def, pushNewItem_items, heapGet_append_self]

/-- Pushing a fresh key at time `t ≥ b` preserves the `Set`-trace
invariant (for any expiry value `e`). -/
theorem C2Inv_pushNewItem {s : CacheState} {used : List String} {b t e : Int}
    {k v : String} (hinv : C2Inv s used b) (hbt : b ≤ t) (hk : k ∉ used)
    (hcaplen : s.lookupTable.length + 1 ≤ s.capacity) :
    C2Inv (pushNewItem s t e k v) (k :: used) (t + 1) := by
  obtain ⟨h1, h2, h3, h4, h5, h6⟩ := hinv
  have hkeys : ∀ p ∈ s.lookupTable, p.1 ≠ k := by
    rintro p hp hpk
    rw [h1] at hp
    obtain ⟨q, hq, hfq⟩ := List.mem_map.mp hp
    apply hk
    rw [← hpk, ← hfq]
    exact (h5 q hq).2.2
  refine ⟨?_, ?_, ?_, ?_, ?_, ?_⟩
  · rw [pushNewItem_lookupTable, pushNewItem_nodes, insertKey,
      eraseFst_eq_self hkeys, List.map_cons, itemKey_pushNewItem_new]
    refine congrArg (_ :: ·) ?_
    rw [h1]
    refine List.map_congr_left ?_
    intro q hq
    rw [itemKey_pushNewItem_old (h5 q hq).2.1]
  · rw [pushNewItem_lookupTable, pushNewItem_capacity, insertKey,
      eraseFst_eq_self hkeys]
    simpa using hcaplen
  · rw [pushNewItem_capacity]
    exact h3
  · rw [pushNewItem_nodes]
    refine List.Pairwise.cons ?_ ?_
    · intro q hq
      rw [itemMoved_pushNewItem_new, itemMoved_pushNewItem_old (h5 q hq).2.1]
      exact lt_of_lt_of_le (h5 q hq).1 hbt
    · refine h4.imp_of_mem ?_
      intro p q hp hq hlt
      rw [itemMoved_pushNewItem_old (h5 p hp).2.1,
        itemMoved_pushNewItem_old (h5 q hq).2.1]
      exact hlt
  · rw [pushNewItem_nodes]
    rintro p hp
    cases hp with
    | head =>
      refine ⟨?_, ?_, ?_⟩
      · rw [itemMoved_pushNewItem_new]
        exact lt_add_one t
      · rw [pushNewItem_items]
        simp
      · rw [itemKey_pushNewItem_new]
        exact List.mem_cons_self _ _
    | tail _ hp' =>
      obtain ⟨hm, hl, hu⟩ := h5 p hp'
      refine ⟨?_, ?_, ?_⟩
      · rw [itemMoved_pushNewItem_old hl]
        calc itemMoved s p.2 < b := hm
          _ ≤ t := hbt
          _ < t + 1 := lt_add_one t
      · rw [pushNewItem_items]
        simp [Nat.lt_succ_of_lt hl]
      · rw [itemKey_pushNewItem_old hl]
        exact List.mem_cons_of_mem _ hu
  · rw [pushNewItem_nodes, List.map_cons, itemKey_pushNewItem_new]
    refine List.Nodup.cons ?_ ?_
    · intro hc
      obtain ⟨q, hq, hfq⟩ := List.mem_map.mp hc
      rw [itemKey_pushNewItem_old (h5 q hq).2.1] at hfq
      apply hk
      rw [← hfq]
      exact (h5 q hq).2.2
    · have hmap : s.nodes.map
          (fun p => itemKey (pushNewItem s t e k v) p.2) =
          s.nodes.map (fun p => itemKey s p.2) :=
        List.map_congr_left
          (fun q hq => itemKey_pushNewItem_old (h5 q hq).2.1 t e k v)
      rw [hmap]
      exact h6

/-- The full-store case of a `Set` step on a distinct-key trace: the back
of the order list exists, is bound in the index, carries the strictly
oldest `movedAt` among all resident entries, and `Set` removes exactly it
(and binds the fresh key) while every other resident binding is
untouched. -/
theorem C2Inv_step_full {s : CacheState} {used : List String} {b t : Int}
    {k v : String} (hinv : C2Inv s used b) (hbt : b ≤ t) (hk : k ∉ used)
    (hfull : s.lookupTable.length = s.capacity) :
    ∃ back : Nat × Nat, s.nodes.getLast? = some back ∧
      (itemKey s back.2, back.2) ∈ s.lookupTable ∧
      (∀ e ∈ s.lookupTable, e.2 ≠ back.2 →
        itemMoved s back.2 < itemMoved s e.2) ∧
      ∃ s', DocCache.Set s t k v = some s' ∧ C2Inv s' (k :: used) (t + 1) ∧
        lookupKey s'.lookupTable (itemKey s back.2) = none ∧
        lookupKey s'.lookupTable k = some s.items.length ∧
        ∀ k', k' ≠ itemKey s back.2 → k' ≠ k →
          lookupKey s'.lookupTable k' = lookupKey s.lookupTable k' := by
  obtain ⟨h1, h2, h3, h4, h5, h6⟩ := hinv
  have hlen_nodes : s.nodes.length = s.lookupTable.length := by
    rw [h1, List.length_map]
  have hnne : s.nodes ≠ [] := by
    refine List.ne_nil_of_length_pos ?_
    rw [hlen_nodes, hfull]
    exact h3
  have hg : s.nodes.getLast? = some (s.nodes.getLast hnne) :=
    List.getLast?_eq_getLast s.nodes hnne
  set back := s.nodes.getLast hnne with hback
  have hdecomp : s.nodes.dropLast ++ [back] = s.nodes :=
    List.dropLast_append_getLast? back (Option.mem_def.mpr hg)
  have hbackmem : back ∈ s.nodes := List.mem_of_getLast?_eq_some hg
  obtain ⟨hbmov, hblen, hbused⟩ := h5 back hbackmem
  have htabdec : s.lookupTable =
      (s.nodes.dropLast).map (fun p => (itemKey s p.2, p.2)) ++
        [(itemKey s back.2, back.2)] := by
    conv_lhs => rw [h1, ← hdecomp]
    rw [List.map_append]
    rfl
  have h6' : ((s.nodes.dropLast).map (fun p => itemKey s p.2) ++
      [itemKey s back.2]).Nodup := by
    have := h6
    rw [← hdecomp, List.map_append] at this
    exact this
  have hdisj := (List.nodup_append.mp h6').2.2
  have hkeysDL : ∀ p ∈ (s.nodes.dropLast).map
      (fun p => (itemKey s p.2, p.2)), p.1 ≠ itemKey s back.2 := by
    rintro p hp hpk
    obtain ⟨q, hq, hfq⟩ := List.mem_map.mp hp
    refine hdisj ?_ (List.mem_singleton_self _)
    rw [← hpk, ← hfq]
    exact List.mem_map_of_mem _ hq
  have hs1tab : eraseFst s.lookupTable (itemKey s back.2) =
      (s.nodes.dropLast).map (fun p => (itemKey s p.2, p.2)) := by
    rw [htabdec, eraseFst_append, eraseFst_eq_self hkeysDL,
      eraseFst_cons, if_pos rfl]
    simp [eraseFst]
  have hfullBool : DocCache.isFull s = true := by
    rw [DocCache.isFull]
    simpa using hfull
  refine ⟨back, hg, ?_, ?_, ?_⟩
  · rw [htabdec]
    exact List.mem_append_right _ (List.mem_singleton_self _)
  · rintro e he hne
    rw [h1] at he
    obtain ⟨q, hq, hfq⟩ := List.mem_map.mp he
    have hq2 : q.2 = e.2 := congrArg Prod.snd hfq
    rw [← hdecomp] at hq
    rcases List.mem_append.mp hq with hqd | hqb
    · have h4' : List.Pairwise
          (fun p q : Nat × Nat => itemMoved s q.2 < itemMoved s p.2)
          (s.nodes.dropLast ++ [back]) := by
        rw [hdecomp]
        exact h4
      have := (List.pairwise_append.mp h4').2.2 q hqd back
        (List.mem_singleton_self _)
      rw [hq2] at this
      exact this
    · exfalso
      apply hne
      rw [← hq2, List.mem_singleton.mp hqb]
  · -- the state after eviction
    have hinv1 : C2Inv
        { s with
          lookupTable := eraseFst s.lookupTable (itemKey s back.2)
          nodes := s.nodes.dropLast } used b := by
      refine ⟨?_, ?_, h3, ?_, ?_, ?_⟩
      · dsimp only
        rw [hs1tab]
        exact List.map_congr_left (fun q hq => rfl)
      · dsimp only
        rw [hs1tab, List.length_map]
        calc s.nodes.dropLast.length ≤ s.nodes.length :=
            (List.dropLast_sublist _).length_le
          _ = s.capacity := by rw [hlen_nodes, hfull]
      · exact h4.sublist (List.dropLast_sublist _)
      · intro p hp
        exact h5 p ((List.dropLast_sublist s.nodes).subset hp)
      · exact List.Nodup.sublist
          (List.Sublist.map _ (List.dropLast_sublist _)) h6
    have hcaplen1 : (eraseFst s.lookupTable (itemKey s back.2)).length + 1 ≤
        s.capacity := by
      rw [hs1tab, List.length_map]
      have : s.nodes.dropLast.length + 1 = s.nodes.length := by
        rw [← hdecomp, List.length_append]
        simp
      omega
    have hinv' := C2Inv_pushNewItem (e := t + s.ttl) (v := v) hinv1 hbt hk
      hcaplen1
    have hbk : itemKey s back.2 ≠ k := fun hc => hk (hc ▸ hbused)
    refine ⟨pushNewItem
        { s with
          lookupTable := eraseFst s.lookupTable (itemKey s back.2)
          nodes := s.nodes.dropLast } t (t + s.ttl) k v, ?_, hinv', ?_, ?_, ?_⟩
    · rw [DocCache.Set, if_pos hfullBool, hg]
      rfl
    · rw [pushNewItem_lookupTable, insertKey, lookupKey_cons,
        if_neg (fun hc => hbk hc.symm)]
      dsimp only
      rw [lookupKey_eraseFst_ne _ _ _ hbk]
      exact lookupKey_eraseFst_self _ _
    · rw [pushNewItem_lookupTable]
      dsimp only
      rw [lookupKey_insertKey_self]
    · intro k' hk1 hk2
      rw [pushNewItem_lookupTable, insertKey, lookupKey_cons, if_neg
        (fun hc => hk2 hc.symm)]
      dsimp only
      rw [lookupKey_eraseFst_ne _ _ _ hk2, lookupKey_eraseFst_ne _ _ _ hk1]

theorem C2Inv_mono {s : CacheState} {used : List String} {b b' : Int}
    (h : C2Inv s used b) (hb : b ≤ b') : C2Inv s used b' := by
  obtain ⟨h1, h2, h3, h4, h5, h6⟩ := h
  refine ⟨h1, h2, h3, h4, ?_, h6⟩
  intro p hp
  obtain ⟨hm, hl, hu⟩ := h5 p hp
  exact ⟨lt_of_lt_of_le hm hb, hl, hu⟩

theorem C2Inv_init (c : Nat) (ttl : Int) (hc : 0 < c) (b : Int) :
    C2Inv (initState c ttl) [] b := by
  refine ⟨rfl, Nat.zero_le c, hc, List.Pairwise.nil, ?_, List.nodup_nil⟩
  intro p hp
  cases hp

/-- One `Set` of a fresh key at a later time preserves the trace
invariant (both below and at capacity). -/
theorem C2Inv_step {s : CacheState} {used : List String} {b t : Int}
    (k v : String) (hinv : C2Inv s used b) (hbt : b ≤ t) (hk : k ∉ used) :
    ∃ s', DocCache.Set s t k v = some s' ∧ C2Inv s' (k :: used) (t + 1) := by
  by_cases hfull : s.lookupTable.length = s.capacity
  · obtain ⟨back, hg, hmem, hmin, s', hset, hinv', hrest⟩ :=
      C2Inv_step_full (v := v) hinv hbt hk hfull
    exact ⟨s', hset, hinv'⟩
  · have hf : ¬ (DocCache.isFull s = true) := by
      rw [DocCache.isFull]
      simpa using hfull
    refine ⟨pushNewItem s t (t + s.ttl) k v, ?_, ?_⟩
    · rw [DocCache.Set, if_neg hf]
    · have h2 := hinv.2.1
      exact C2Inv_pushNewItem hinv hbt hk (by omega)

theorem docSet_capacity {s s' : CacheState} {now : Int} {k v : String}
    (h : DocCache.Set s now k v = some s') : s'.capacity = s.capacity := by
  rw [DocCache.Set] at h
  by_cases hf : DocCache.isFull s = true
  · rw [if_pos hf] at h
    cases hg : s.nodes.getLast? with
    | none => rw [hg] at h; cases h
    | some back =>
      rw [hg] at h
      injection h with h
      subst h
      rfl
  · rw [if_neg hf] at h
    injection h with h
    subst h
    rfl

theorem runSets_capacity (ops : List SetOp) :
    ∀ s : CacheState, (runSets s ops).capacity = s.capacity := by
  induction ops with
  | nil => intro s; rfl
  | cons op ops ih =>
    intro s
    rw [runSets, List.foldl_cons]
    have h1 : (List.foldl docSetD (docSetD s op) ops).capacity =
        (docSetD s op).capacity := ih (docSetD s op)
    rw [h1]
    rw [docSetD]
    cases hset : DocCache.Set s op.time op.key op.val with
    | none => rfl
    | some s' =>
      rw [Option.getD_some]
      exact docSet_capacity hset

/-- Running a trace of fresh-keyed, time-increasing `Set` calls preserves
the invariant; the used-key set grows only by the trace's keys and the
resulting bound is compatible with any strictly later operation. -/
theorem C2Inv_run (ops : List SetOp) :
    ∀ {s : CacheState} {used : List String} {b : Int}, C2Inv s used b →
      List.Pairwise (fun a c : SetOp => a.time < c.time) ops →
      (ops.map SetOp.key).Nodup →
      (∀ op ∈ ops, b ≤ op.time) →
      (∀ op ∈ ops, op.key ∉ used) →
      ∃ used' b', C2Inv (runSets s ops) used' b' ∧
        (∀ x ∈ used', x ∈ used ∨ ∃ op ∈ ops, op.key = x) ∧
        (∀ op' : SetOp, (∀ op ∈ ops, op.time < op'.time) → b ≤ op'.time →
          b' ≤ op'.time) := by
  induction ops with
  | nil =>
    intro s used b hinv _ _ _ _
    exact ⟨used, b, hinv, fun x hx => Or.inl hx, fun op' _ hb => hb⟩
  | cons op ops ih =>
    intro s used b hinv hpw hnd hbd hfresh
    obtain ⟨s', hset, hinv'⟩ := C2Inv_step op.key op.val hinv
      (hbd op (List.mem_cons_self _ _)) (hfresh op (List.mem_cons_self _ _))
    have hrun : runSets s (op :: ops) = runSets s' ops := by
      rw [runSets, List.foldl_cons]
      rw [show docSetD s op = s' from by rw [docSetD, hset, Option.getD_some]]
      rfl
    rw [hrun]
    rw [List.pairwise_cons] at hpw
    rw [List.map_cons, List.nodup_cons] at hnd
    obtain ⟨used', b', hinvr, hchar, hbnd⟩ := ih hinv' hpw.2 hnd.2
      (fun q hq => by
        have := hpw.1 q hq
        omega)
      (fun q hq hc => by
        rcases List.mem_cons.mp hc with h | h
        · exact hnd.1 (h ▸ List.mem_map_of_mem SetOp.key hq)
        · exact hfresh q (List.mem_cons_of_mem _ hq) h)
    refine ⟨used', b', hinvr, ?_, ?_⟩
    · intro x hx
      rcases hchar x hx with hx' | ⟨q, hq, hqk⟩
      · rcases List.mem_cons.mp hx' with h | h
        · exact Or.inr ⟨op, List.mem_cons_self _ _, h.symm⟩
        · exact Or.inl h
      · exact Or.inr ⟨q, List.mem_cons_of_mem _ hq, hqk⟩
    · intro op' hlt hb
      refine hbnd op' (fun q hq => hlt q (List.mem_cons_of_mem _ hq)) ?_
      have := hlt op (List.mem_cons_self _ _)
      omega

/-- The trace invariant holds after any prefix of a distinct-key,
time-increasing trace, with any bound exceeding the prefix's times. -/
theorem C2Inv_prefix (c : Nat) (ttl : Int) (hc : 0 < c) (pre : List SetOp)
    (hpw : List.Pairwise (fun a d : SetOp => a.time < d.time) pre)
    (hnd : (pre.map SetOp.key).Nodup) (tnext : Int)
    (hlt : ∀ q ∈ pre, q.time < tnext) :
    ∃ used', C2Inv (runSets (initState c ttl) pre) used' tnext ∧
      ∀ x ∈ used', ∃ q ∈ pre, q.key = x := by
  cases pre with
  | nil =>
    exact ⟨[], C2Inv_init c ttl hc tnext,
      fun x hx => absurd hx (List.not_mem_nil _)⟩
  | cons p ps =>
    have hbd : ∀ q ∈ p :: ps, p.time ≤ q.time := by
      intro q hq
      rcases List.mem_cons.mp hq with h | h
      · rw [h]
      · exact le_of_lt ((List.pairwise_cons.mp hpw).1 q h)
    obtain ⟨used', b', hinv, hchar, hbnd⟩ := C2Inv_run (p :: ps)
      (C2Inv_init c ttl hc p.time) hpw hnd hbd
      (fun q _ h => absurd h (List.not_mem_nil _))
    have hble : b' ≤ tnext := by
      refine hbnd ⟨tnext, "", ""⟩ (fun q hq => hlt q hq) ?_
      exact le_of_lt (hlt p (List.mem_cons_self _ _))
    refine ⟨used', C2Inv_mono hinv hble, fun x hx => ?_⟩
    rcases hchar x hx with h | h
    · exact absurd h (List.not_mem_nil _)
    · exact h

/-- **C2**: for a trace of `Set` calls with pairwise-distinct keys and
strictly increasing call times, starting from a fresh store of positive
capacity: (1) after every prefix the lookup index holds at most `capacity`
entries; (2) whenever a `Set` finds the index at capacity, the cold end of
the order list exists, is a resident entry, its `movedAt` (promotion
timestamp) is strictly the oldest among all resident entries, and the
`Set` succeeds, removing exactly that entry's key, binding the fresh key,
and leaving every other resident binding unchanged. -/
theorem docSet_capacity_bound_and_lru (c : Nat) (ttl : Int)
    (ops : List SetOp) (hc : 0 < c)
    (ht : List.Pairwise (fun a d : SetOp => a.time < d.time) ops)
    (hk : (ops.map SetOp.key).Nodup) :
    (∀ pre rest : List SetOp, ops = pre ++ rest →
      (runSets (initState c ttl) pre).lookupTable.length ≤ c) ∧
    (∀ (pre : List SetOp) (op : SetOp) (rest : List SetOp),
      ops = pre ++ op :: rest →
      (runSets (initState c ttl) pre).lookupTable.length = c →
      ∃ back : Nat × Nat,
        (runSets (initState c ttl) pre).nodes.getLast? = some back ∧
        (itemKey (runSets (initState c ttl) pre) back.2, back.2) ∈
          (runSets (initState c ttl) pre).lookupTable ∧
        (∀ e ∈ (runSets (initState c ttl) pre).lookupTable, e.2 ≠ back.2 →
          itemMoved (runSets (initState c ttl) pre) back.2 <
            itemMoved (runSets (initState c ttl) pre) e.2) ∧
        ∃ s', DocCache.Set (runSets (initState c ttl) pre) op.time op.key
            op.val = some s' ∧
          lookupKey s'.lookupTable
            (itemKey (runSets (initState c ttl) pre) back.2) = none ∧
          lookupKey s'.lookupTable op.key =
            some (runSets (initState c ttl) pre).items.length ∧
          ∀ k', k' ≠ itemKey (runSets (initState c ttl) pre) back.2 →
            k' ≠ op.key →
            lookupKey s'.lookupTable k' =
              lookupKey (runSets (initState c ttl) pre).lookupTable k') := by
  constructor
  · rintro pre rest rfl
    cases hpre : pre with
    | nil => exact Nat.zero_le c
    | cons p ps =>
      subst hpre
      have hpwp : List.Pairwise (fun a d : SetOp => a.time < d.time)
          (p :: ps) :=
        ht.sublist (List.sublist_append_left _ _)
      have hndp : ((p :: ps).map SetOp.key).Nodup := by
        have hk' := hk
        rw [List.map_append] at hk'
        exact hk'.sublist (List.sublist_append_left _ _)
      have hbd : ∀ q ∈ p :: ps, p.time ≤ q.time := by
        intro q hq
        rcases List.mem_cons.mp hq with h | h
        · rw [h]
        · exact le_of_lt ((List.pairwise_cons.mp hpwp).1 q h)
      obtain ⟨used', b', hinv, _, _⟩ := C2Inv_run (p :: ps)
        (C2Inv_init c ttl hc p.time) hpwp hndp hbd
        (fun q _ h => absurd h (List.not_mem_nil _))
      have h2 := hinv.2.1
      rwa [runSets_capacity] at h2
  · rintro pre op rest rfl hfull
    have hpwp : List.Pairwise (fun a d : SetOp => a.time < d.time) pre :=
      ht.sublist (List.sublist_append_left _ _)
    have hndp : (pre.map SetOp.key).Nodup := by
      have hk' := hk
      rw [List.map_append] at hk'
      exact hk'.sublist (List.sublist_append_left _ _)
    have hlt : ∀ q ∈ pre, q.time < op.time := fun q hq =>
      (List.pairwise_append.mp ht).2.2 q hq op (List.mem_cons_self _ _)
    obtain ⟨used', hinv, hused⟩ :=
      C2Inv_prefix c ttl hc pre hpwp hndp op.time hlt
    have hknotpre : op.key ∉ pre.map SetOp.key := by
      have hk' := hk
      rw [List.map_append, List.nodup_append] at hk'
      intro hcmem
      refine hk'.2.2 hcmem ?_
      rw [List.map_cons]
      exact List.mem_cons_self _ _
    have hfreshk : op.key ∉ used' := by
      intro hcm
      obtain ⟨q, hq, hqk⟩ := hused op.key hcm
      exact hknotpre (hqk ▸ List.mem_map_of_mem SetOp.key hq)
    have hfull' : (runSets (initState c ttl) pre).lookupTable.length =
        (runSets (initState c ttl) pre).capacity := by
      rw [runSets_capacity]
      exact hfull
    obtain ⟨back, hg, hmem, hmin, s', hset, hinv', hnone, hsome, hframe⟩ :=
      C2Inv_step_full (t := op.time) (k := op.key) (v := op.val) hinv
        (le_refl _) hfreshk hfull'
    exact ⟨back, hg, hmem, hmin, s', hset, hnone, hsome, hframe⟩

/-- Witness for C2: the three-Set trace of the spec's first example
scenario (capacity 2) never exceeds two resident entries. -/
theorem docSet_capacity_bound_and_lru_witness :
    (runSets (initState 2 1000)
      [⟨0, "a", "1"⟩, ⟨1, "b", "2"⟩, ⟨2, "c", "3"⟩]).lookupTable.length ≤
      2 :=
  (docSet_capacity_bound_and_lru 2 1000
    [⟨0, "a", "1"⟩, ⟨1, "b", "2"⟩, ⟨2, "c", "3"⟩] (by decide) (by decide)
    (by decide)).1 [⟨0, "a", "1"⟩, ⟨1, "b", "2"⟩, ⟨2, "c", "3"⟩] [] rfl
